import Mathlib

/-!
Verification of the DeepTrace concurrent page inspector and its durable run
store (`deeptrace/inspector.js`, `deeptrace/storage.js`) against the
repository specification.  The JavaScript code is shallowly embedded:

* the `Semaphore` class becomes an explicit state record with executable
  `acquire`/`release` transitions;
* the cooperative (single-threaded, interleaving-at-`await`) inspection
  session becomes a small-step machine whose scheduler choices are an
  explicit input;
* the durable store's filesystem effects become transitions on an explicit
  file-map state, with the Node `fs.promises` API modelled faithfully
  (in particular, `fs.promises` exposes **no** `fsync` function, so the
  source expression `fs.fsync(...)` is a call of `undefined` and throws);
* `normalizeUrl` is embedded over a parsed URL representation mirroring the
  WHATWG `URL` / `URLSearchParams` operations the source uses.

All definitions are executable, so concrete counterexamples evaluate by
`decide` / `rfl`.
-/

/-! ## Concurrency Governor (`Semaphore`, inspector.js lines 38–61)

The JavaScript class keeps `max`, a counter `current`, and a FIFO array
`queue` of pending resolvers.  `acquire` increments `current` when below
`max`, otherwise pushes the caller to the back of `queue`; `release`
decrements `current` and, when the queue is nonempty, re-increments it and
resolves the *front* waiter (`queue.shift()`).

Waiting callers are identified here by ghost arrival stamps (the position
of their `acquire` in the operation sequence), so that "longest-waiting"
is expressible: smaller stamp = requested earlier. -/

structure Semaphore where
  max : Nat
  current : Int
  queue : List Nat
deriving Repr, DecidableEq

/-- Model of `new Semaphore(max)`: `current = 0`, empty queue. -/
def Semaphore.init (max : Nat) : Semaphore :=
  { max := max, current := 0, queue := [] }

/-- Model of `acquire()` by the caller with arrival stamp `caller`.  Returns the new
state and `true` when the slot was granted immediately (`current < max`),
`false` when the caller was enqueued. -/
def Semaphore.acquireOp (s : Semaphore) (caller : Nat) : Semaphore × Bool :=
  if s.current < (s.max : Int) then
    ({ s with current := s.current + 1 }, true)
  else
    ({ s with queue := s.queue ++ [caller] }, false)

/-- Model of `release()`.  Decrements `current`; when the queue is nonempty,
re-increments `current`, removes the front waiter (`queue.shift()`) and
reports it as the woken caller. -/
def Semaphore.releaseOp (s : Semaphore) : Semaphore × Option Nat :=
  match s.queue with
  | [] => ({ s with current := s.current - 1 }, none)
  | w :: rest => ({ s with current := s.current - 1 + 1, queue := rest }, some w)

/-- An external operation on the semaphore: some caller invokes `acquire`,
or some slot holder invokes `release`. -/
inductive SemOp where
  | acq : SemOp
  | rel : SemOp
deriving Repr, DecidableEq

/-- Run state for a semaphore operation sequence: the semaphore itself plus
the next fresh arrival stamp. -/
structure SemRun where
  sem : Semaphore
  nextStamp : Nat
deriving Repr, DecidableEq

def semStep (r : SemRun) : SemOp → SemRun
  | SemOp.acq =>
      { sem := (r.sem.acquireOp r.nextStamp).1, nextStamp := r.nextStamp + 1 }
  | SemOp.rel =>
      { sem := (r.sem.releaseOp).1, nextStamp := r.nextStamp }

def semRunFrom (r : SemRun) : List SemOp → SemRun
  | [] => r
  | op :: ops => semRunFrom (semStep r op) ops

/-- The state reached from a fresh `Semaphore(max)` after an arbitrary
sequence of `acquire`/`release` calls. -/
def semRun (max : Nat) (ops : List SemOp) : SemRun :=
  semRunFrom { sem := Semaphore.init max, nextStamp := 0 } ops

/-- Model of `release` on a given state wakes the front (longest-waiting) queue
entry, if any: decidable statement of the FIFO wake-up discipline plus the
fact that the woken caller has the minimal arrival stamp in the queue. -/
def wakesLongestWaiting (s : Semaphore) : Bool :=
  match s.queue, (s.releaseOp).2 with
  | [], none => true
  | w :: _, some w' => w' == w && s.queue.all (fun x => decide (w' ≤ x))
  | _, _ => false

/-- Well-formedness carried through every reachable semaphore run state:
capacity is respected, queue stamps are strictly increasing (arrival
order), and all stamps are below the next fresh stamp. -/
def SemInv (r : SemRun) : Prop :=
  r.sem.current ≤ (r.sem.max : Int) ∧
  r.sem.queue.Chain' (· < ·) ∧
  (∀ x ∈ r.sem.queue, x < r.nextStamp)

/-! ## Fetcher (`fetchWithTimeout`, inspector.js lines 98–190)

The response callback: a status in `[300, 400)` with a truthy `location`
header re-issues the request against the redirect target; any other status
`!== 200` rejects with `HTTP <status>`; a `content-type` that does not
contain `"text/html"` rejects with `Not HTML`; the body is accumulated
chunk by chunk, rejecting with `Response too large` as soon as the
accumulated length exceeds `MAX_TEXT_LENGTH * 2`; on `end` the body
resolves.  Timeouts and abort signals are real-time effects outside this
model; the claims verified here concern only status / content-type / size
handling. -/

def MAX_TEXT_LENGTH : Nat := 50000

structure HttpResponse where
  statusCode : Nat
  location : Option String
  contentType : Option String
  chunks : List String
deriving Repr, DecidableEq

inductive FetchErr where
  | httpStatus (code : Nat)
  | notHtml
  | responseTooLarge
deriving Repr, DecidableEq

inductive FetchResult where
  | redirect (target : String)
  | failure (e : FetchErr)
  | success (body : String)
deriving Repr, DecidableEq

/-- Substring test, mirroring JavaScript `String.prototype.includes`. -/
def containsSub (s pat : List Char) : Bool :=
  match s with
  | [] => pat.isEmpty
  | _ :: t => pat.isPrefixOf s || containsSub t pat

/-- Body accumulation (`res.on('data', ...)`): each chunk is appended and
the size guard fires as soon as `data.length > MAX_TEXT_LENGTH * 2`. -/
def accumulateBody (data : String) : List String → Except FetchErr String
  | [] => Except.ok data
  | c :: cs =>
      if (data ++ c).length > MAX_TEXT_LENGTH * 2 then
        Except.error FetchErr.responseTooLarge
      else accumulateBody (data ++ c) cs

/-- Whether the response triggers the redirect branch: status in
`[300, 400)` and a truthy (present, nonempty) `location` header. -/
def isRedirectResponse (r : HttpResponse) : Bool :=
  300 ≤ r.statusCode && r.statusCode < 400 &&
    (match r.location with
     | some l => !(l == "")
     | none => false)

/-- The response callback of `fetchWithTimeout` (lines 120–175). -/
def handleResponse (r : HttpResponse) : FetchResult :=
  if isRedirectResponse r then
    match r.location with
    | some l => FetchResult.redirect l
    | none => FetchResult.failure (FetchErr.httpStatus r.statusCode)
  else if r.statusCode ≠ 200 then
    FetchResult.failure (FetchErr.httpStatus r.statusCode)
  else
    let ct := r.contentType.getD ""
    if !containsSub ct.data "text/html".data then
      FetchResult.failure FetchErr.notHtml
    else
      match accumulateBody "" r.chunks with
      | Except.error e => FetchResult.failure e
      | Except.ok body => FetchResult.success body

/-- Model of `fetchWithTimeout` as a redirect-following loop over an abstract
network environment `env` (response per URL) and redirect resolution
`resolve` (modelling `new URL(location, url).toString()`).  The source
has no hop limit; `fuel` bounds the recursion, `none` standing for a
never-terminating redirect chain. -/
def fetchWithTimeout (env : String → HttpResponse)
    (resolve : String → String → String) :
    Nat → String → Option (Except FetchErr String)
  | 0, _ => none
  | fuel + 1, url =>
      match handleResponse (env url) with
      | FetchResult.redirect l => fetchWithTimeout env resolve fuel (resolve l url)
      | FetchResult.failure e => some (Except.error e)
      | FetchResult.success body => some (Except.ok body)

/-- Concatenation of all body chunks, in arrival order. -/
def joinAll : List String → String
  | [] => ""
  | c :: cs => c ++ joinAll cs

/-- A concrete final response with a 2xx status other than 200: HTTP 201,
HTML content type, small body. -/
def respCreated : HttpResponse :=
  { statusCode := 201, location := none,
    contentType := some "text/html", chunks := ["ok"] }

/-- A concrete ordinary success response used to instantiate the amended
C8 theorem. -/
def respPlainPage : HttpResponse :=
  { statusCode := 200, location := none,
    contentType := some "text/html; charset=utf-8", chunks := ["<p>hi</p>"] }

/-! ## Durable Run Store (storage.js, second document of inspector.js,
lines 374–670)

The filesystem is an explicit association map from paths to file values;
JSON payloads are abstracted into `FileVal` (the store only ever writes
metadata objects, `null`, an empty array, opaque page/synthesis objects,
and the line-delimited page log).

A crucial point of fidelity: the store imports `const fs =
require('fs').promises`, and the Node `fs.promises` namespace exposes
**no** `fsync` function (file syncing is `FileHandle.sync()`).  Hence the
source line `await fs.fsync(await fs.open(tmpPath, 'r+'))` invokes
`undefined` and throws a `TypeError`, which the surrounding `try/catch`
turns into the failure path of `atomicWrite`: unlink the temp file,
return `false`.  The model keeps the unreachable success path visible.

The write queue (`savePageResult` / `saveSynthesis` / `processQueue`) is
modelled in its quiescent, single-consumer semantics: each call's task is
processed to completion before the next store operation, which is the
behaviour when callers await each `save*` promise — the reading most
favourable to the spec's claims about `flush()`. -/

inductive RunStatus where
  | running
  | completed
  | interrupted
deriving Repr, DecidableEq

structure MetaData where
  topic : String
  status : RunStatus
  pageCount : Nat
  maxPages : Nat
deriving Repr, DecidableEq

inductive FileVal where
  | jnull
  | jmeta (m : MetaData)
  | jarray
  | jobject (payload : Nat)
  | jlines (lines : List Nat)
deriving Repr, DecidableEq

def fsWrite : List (String × FileVal) → String → FileVal → List (String × FileVal)
  | [], p, v => [(p, v)]
  | (q, w) :: rest, p, v =>
      if q = p then (p, v) :: rest else (q, w) :: fsWrite rest p v

def fsRead : List (String × FileVal) → String → Option FileVal
  | [], _ => none
  | (q, w) :: rest, p => if q = p then some w else fsRead rest p

def fsRemove : List (String × FileVal) → String → List (String × FileVal)
  | [], _ => []
  | (q, w) :: rest, p =>
      if q = p then fsRemove rest p else (q, w) :: fsRemove rest p

/-- Module-level mutable state of storage.js. -/
structure StoreState where
  fs : List (String × FileVal)
  currentRunPath : Option String
  metaData : Option MetaData
  shutdownRequested : Bool
deriving Repr, DecidableEq

/-- The expression `fs.fsync(...)` where `fs = require('fs').promises`:
`fs.promises` has no `fsync` member, so this is a call of `undefined` and
always throws. -/
def fsPromisesFsyncCall : Except String Unit :=
  Except.error "TypeError: fs.fsync is not a function"

/-- Model of `atomicWrite(filePath, data)` (storage.js lines 386–416): refuse when
shut down; write the sibling `.tmp` file; attempt the (broken) fsync
call; on its failure unlink the temp file and report `false`; the rename
success path is unreachable but modelled. -/
def atomicWrite (st : StoreState) (path : String) (data : FileVal) :
    StoreState × Bool :=
  if st.shutdownRequested then (st, false)
  else
    let tmpPath := path ++ ".tmp"
    let fs1 := fsWrite st.fs tmpPath data
    match fsPromisesFsyncCall with
    | Except.error _ =>
        ({ st with fs := fsRemove fs1 tmpPath }, false)
    | Except.ok _ =>
        ({ st with fs := fsWrite (fsRemove fs1 tmpPath) path data }, true)

/-- Run directory name; the source derives it from the sanitized topic
plus a wall-clock timestamp, abstracted here to a function of the topic. -/
def runDir (topic : String) : String := "runs/" ++ topic

/-- Model of `initialize(researchContext)` (storage.js lines 433–499), processed to
completion.  Every `atomicWrite` fails (see above), so only the plain
`fs.writeFile` of the empty page log survives on disk. -/
def storeInitialize (st : StoreState) (topic : String) (maxPages : Nat) :
    StoreState :=
  if st.currentRunPath.isSome then st
  else
    let runPath := runDir topic
    let meta0 : MetaData :=
      { topic := topic, status := RunStatus.running, pageCount := 0,
        maxPages := maxPages }
    let st1 : StoreState :=
      { st with currentRunPath := some runPath, metaData := some meta0 }
    let st2 := (atomicWrite st1 (runPath ++ "/meta.json") (FileVal.jmeta meta0)).1
    let st3 :=
      if fsRead st2.fs (runPath ++ "/questions.json") = none then
        (atomicWrite st2 (runPath ++ "/questions.json") FileVal.jarray).1
      else st2
    let st4 :=
      if fsRead st3.fs (runPath ++ "/pages.jsonl") = none then
        { st3 with fs := fsWrite st3.fs (runPath ++ "/pages.jsonl") (FileVal.jlines []) }
      else st3
    let st5 :=
      if fsRead st4.fs (runPath ++ "/final.json") = none then
        (atomicWrite st4 (runPath ++ "/final.json") FileVal.jnull).1
      else st4
    match fsRead st5.fs (runPath ++ "/meta.json") with
    | some (FileVal.jmeta existing) =>
        let meta1 : MetaData :=
          { meta0 with pageCount := existing.pageCount,
                       status := RunStatus.running }
        let st6 : StoreState := { st5 with metaData := some meta1 }
        (atomicWrite st6 (runPath ++ "/meta.json") (FileVal.jmeta meta1)).1
    | _ => st5

/-- Model of `savePageResult(pageObject)` followed by its queue task (storage.js
lines 516–533 and 565–577): append one line to the page log, bump the
in-memory page counter, attempt the meta rewrite, resolve `true`. -/
def savePageResult (st : StoreState) (payload : Nat) : StoreState × Bool :=
  match st.currentRunPath with
  | none => (st, false)
  | some runPath =>
      if st.shutdownRequested then (st, false)
      else
        let pagesPath := runPath ++ "/pages.jsonl"
        let newLines :=
          match fsRead st.fs pagesPath with
          | some (FileVal.jlines ls) => ls ++ [payload]
          | _ => [payload]
        let st1 : StoreState :=
          { st with fs := fsWrite st.fs pagesPath (FileVal.jlines newLines) }
        match st1.metaData with
        | some m =>
            let m' : MetaData := { m with pageCount := m.pageCount + 1 }
            let st2 : StoreState := { st1 with metaData := some m' }
            ((atomicWrite st2 (runPath ++ "/meta.json") (FileVal.jmeta m')).1, true)
        | none => (st1, true)

/-- Model of `saveSynthesis(finalObject)` followed by its queue task (storage.js
lines 535–552 and 578–589): attempt the atomic overwrite of `final.json`
(its boolean result is ignored by the source), set the in-memory status
to `completed`, attempt the meta rewrite, resolve `true`. -/
def saveSynthesis (st : StoreState) (payload : Nat) : StoreState × Bool :=
  match st.currentRunPath with
  | none => (st, false)
  | some runPath =>
      if st.shutdownRequested then (st, false)
      else
        let st1 := (atomicWrite st (runPath ++ "/final.json") (FileVal.jobject payload)).1
        match st1.metaData with
        | some m =>
            let m' : MetaData := { m with status := RunStatus.completed }
            let st2 : StoreState := { st1 with metaData := some m' }
            ((atomicWrite st2 (runPath ++ "/meta.json") (FileVal.jmeta m')).1, true)
        | none => (st1, true)

/-- Model of `flush()` (storage.js lines 600–644) with an already-drained queue:
set the queue-closed flag, read `final.json` (unreadable or `null` counts
as no final), and if no final exists while the in-memory status is still
`running`, set it to `interrupted` and attempt the meta rewrite — which
`atomicWrite` refuses outright because `shutdownRequested` was just set. -/
def storeFlush (st : StoreState) : StoreState :=
  let st1 : StoreState := { st with shutdownRequested := true }
  match st1.currentRunPath, st1.metaData with
  | some runPath, some m =>
      let hasFinal :=
        match fsRead st1.fs (runPath ++ "/final.json") with
        | some FileVal.jnull => false
        | some _ => true
        | none => false
      if !hasFinal && (m.status == RunStatus.running) then
        let m' : MetaData := { m with status := RunStatus.interrupted }
        let st2 : StoreState := { st1 with metaData := some m' }
        (atomicWrite st2 (runPath ++ "/meta.json") (FileVal.jmeta m')).1
      else st1
  | _, _ => st1

/-- An API-level store operation, processed to quiescence. -/
inductive StoreOp where
  | opInit (topic : String) (maxPages : Nat)
  | opSavePage (payload : Nat)
  | opSaveSynthesis (payload : Nat)
  | opFlush
deriving Repr, DecidableEq

def storeStep (st : StoreState) : StoreOp → StoreState
  | StoreOp.opInit topic maxPages => storeInitialize st topic maxPages
  | StoreOp.opSavePage payload => (savePageResult st payload).1
  | StoreOp.opSaveSynthesis payload => (saveSynthesis st payload).1
  | StoreOp.opFlush => storeFlush st

def emptyStore : StoreState :=
  { fs := [], currentRunPath := none, metaData := none,
    shutdownRequested := false }

/-- State of the store after a sequence of API calls on a fresh process. -/
def storeRun (ops : List StoreOp) : StoreState :=
  ops.foldl storeStep emptyStore

/-- Canonical store state after `initialize` and a batch of processed
page saves: only the page log exists on disk (every atomic write failed),
while the in-memory metadata counts the pages. -/
def canonPages (ps : List Nat) : StoreState :=
  { fs := [("runs/research/pages.jsonl", FileVal.jlines ps)],
    currentRunPath := some "runs/research",
    metaData := some { topic := "research", status := RunStatus.running,
                       pageCount := ps.length, maxPages := 200 },
    shutdownRequested := false }

/-! ## Crawl Orchestrator (`inspectQuestion` / `processUrl`, inspector.js
lines 297–369)

JavaScript is single-threaded: an `async` function runs atomically between
`await` points.  `processUrl` has these suspension points: `semaphore.
acquire()`, `randomDelay()`, `inspectPage(...)`, and `Promise.all` of the
expansion tasks.  The session is therefore modelled as a small-step
machine over task control positions; a scheduler choice sequence (which
resumable task runs next) is an explicit input, so the verified
properties hold for **every** interleaving.

Oracles close the model over the environment: `stopFn` is the
caller-supplied `shouldStopFn` (per invocation index), `fetchFn` is the
outcome of `inspectPage` for a URL (`none`: fetch/extraction failure or
text below the minimum length), `normFn` is the URL normalizer
(`normalizeUrl` in the source; the session properties hold for any
normalizer).  Note that the success path of `processUrl` (lines 342–361)
increments the page counter and invokes `onPageCountUpdate` but contains
**no** call into the Durable Run Store; `Ev.storeWriteEv` exists in the
event vocabulary precisely so that its absence from every trace is a
statement about the code. -/

def MAX_CONCURRENT : Nat := 3

def MAX_EXPANDED_URLS : Nat := 25

/-- Result of a successful `inspectPage`: the extracted same-domain links
(in document order); title/text are irrelevant to the claims. -/
structure PageRec where
  links : List String
deriving Repr, DecidableEq

/-- Control position of one `processUrl` task between suspension points. -/
inductive TaskPhase where
  | semWait
  | afterAcquire
  | delaying
  | fetching
  | waitingChildren (children : List Nat)
  | finished
deriving Repr, DecidableEq

structure UrlTask where
  url : String
  depth : Nat
  phase : TaskPhase
  holding : Bool
deriving Repr, DecidableEq

/-- Observable events of a session, in chronological order. -/
inductive Ev where
  | claim (tid : Nat) (norm : String)
  | fetchStart (tid : Nat) (norm : String)
  | callbackEv (n : Nat)
  | storeWriteEv (tid : Nat)
  | spawnEv (parent : Nat) (parentDepth : Nat) (children : List Nat)
  | releaseEv (tid : Nat)
  | doneEv (tid : Nat)
deriving Repr, DecidableEq

structure Session where
  tasks : List UrlTask
  visited : List String
  sem : Semaphore
  pageCount : Nat
  aborted : Bool
  stopCalls : Nat
  events : List Ev
deriving Repr, DecidableEq

structure SessionEnv where
  stopFn : Nat → Bool
  fetchFn : String → Option PageRec
  normFn : String → String

/-- Model of `shouldAbort()` (lines 305–313): sticky latch over the caller's
`shouldStopFn`. -/
def shouldAbortStep (env : SessionEnv) (s : Session) : Bool × Session :=
  if s.aborted then (true, s)
  else if env.stopFn s.stopCalls then
    (true, { s with stopCalls := s.stopCalls + 1, aborted := true })
  else
    (false, { s with stopCalls := s.stopCalls + 1 })

def setTask (s : Session) (tid : Nat) (t : UrlTask) : Session :=
  { s with tasks := s.tasks.set tid t }

def logEv (s : Session) (e : Ev) : Session :=
  { s with events := s.events ++ [e] }

/-- Model of `semaphore.release()` in the `finally` block (or the pre-`try` abort
path) followed by the resolution of the task's `processUrl` promise: mark
the task terminated, decrement the semaphore, and — when the wait queue
is nonempty — re-increment it and wake the front waiter, whose
continuation then owns the slot (`queue.shift()` + `resolve()`). -/
def finishTask (s : Session) (tid : Nat) : Session :=
  match s.tasks[tid]? with
  | none => s
  | some t =>
      let tfin : UrlTask := { t with phase := TaskPhase.finished, holding := false }
      let tasks1 := s.tasks.set tid tfin
      let evs := s.events ++ [Ev.releaseEv tid, Ev.doneEv tid]
      match s.sem.queue with
      | [] =>
          let sem1 : Semaphore := { s.sem with current := s.sem.current - 1 }
          { s with tasks := tasks1, events := evs, sem := sem1 }
      | w :: rest =>
          let sem2 : Semaphore :=
            { s.sem with current := s.sem.current - 1 + 1, queue := rest }
          match tasks1[w]? with
          | some tw =>
              if tw.phase = TaskPhase.semWait then
                let twa : UrlTask :=
                  { tw with phase := TaskPhase.afterAcquire, holding := true }
                { s with tasks := tasks1.set w twa, events := evs, sem := sem2 }
              else
                { s with tasks := tasks1, events := evs, sem := sem2 }
          | none =>
              { s with tasks := tasks1, events := evs, sem := sem2 }

/-- The synchronous prefix of `processUrl(url, depth)` up to its first
suspension (lines 315–326): abort check, dedup check, claim, acquire. -/
def startTask (env : SessionEnv) (s : Session) (url : String) (depth : Nat) :
    Session :=
  let (ab, s1) := shouldAbortStep env s
  let tid := s1.tasks.length
  if ab then
    { s1 with tasks := s1.tasks ++ [⟨url, depth, TaskPhase.finished, false⟩],
              events := s1.events ++ [Ev.doneEv tid] }
  else if s1.visited.contains (env.normFn url) then
    { s1 with tasks := s1.tasks ++ [⟨url, depth, TaskPhase.finished, false⟩],
              events := s1.events ++ [Ev.doneEv tid] }
  else if s1.sem.current < (s1.sem.max : Int) then
    { s1 with visited := s1.visited ++ [env.normFn url],
              events := s1.events ++ [Ev.claim tid (env.normFn url)],
              sem := { s1.sem with current := s1.sem.current + 1 },
              tasks := s1.tasks ++ [⟨url, depth, TaskPhase.afterAcquire, true⟩] }
  else
    { s1 with visited := s1.visited ++ [env.normFn url],
              events := s1.events ++ [Ev.claim tid (env.normFn url)],
              sem := { s1.sem with queue := s1.sem.queue ++ [tid] },
              tasks := s1.tasks ++ [⟨url, depth, TaskPhase.semWait, false⟩] }

/-- Lines 346–356: select up to `MAX_EXPANDED_URLS` outbound links whose
normalized form is not yet claimed. -/
def selectExpansion (normFn : String → String) (visited : List String) :
    List String → List String → List String
  | acc, [] => acc
  | acc, link :: rest =>
      if acc.length ≥ MAX_EXPANDED_URLS then acc
      else if visited.contains (normFn link) then
        selectExpansion normFn visited acc rest
      else selectExpansion normFn visited (acc ++ [link]) rest

/-- Model of `expandedUrls.map(expandUrl => processUrl(expandUrl, 1))`: each child
task's synchronous prefix runs immediately, in order; the list of child
task ids is returned for the parent's `Promise.all`. -/
def spawnChildren (env : SessionEnv) : Session → List String → Session × List Nat
  | s, [] => (s, [])
  | s, u :: us =>
      let cid := s.tasks.length
      let s1 := startTask env s u 1
      let (s2, rest) := spawnChildren env s1 us
      (s2, cid :: rest)

/-- Resume the scheduled task at its current suspension point (one atomic
segment of `processUrl`). -/
def resumeTask (env : SessionEnv) (s : Session) (tid : Nat) : Session :=
  match s.tasks[tid]? with
  | none => s
  | some t =>
      match t.phase with
      | TaskPhase.afterAcquire =>
          let (ab, s1) := shouldAbortStep env s
          if ab then finishTask s1 tid
          else setTask s1 tid { t with phase := TaskPhase.delaying }
      | TaskPhase.delaying =>
          let (ab, s1) := shouldAbortStep env s
          if ab then finishTask s1 tid
          else
            let s2 := setTask s1 tid { t with phase := TaskPhase.fetching }
            logEv s2 (Ev.fetchStart tid (env.normFn t.url))
      | TaskPhase.fetching =>
          match env.fetchFn t.url with
          | none => finishTask s tid
          | some page =>
              let (ab, s1) := shouldAbortStep env s
              if ab then finishTask s1 tid
              else
                let s2 := { s1 with pageCount := s1.pageCount + 1 }
                let s3 := logEv s2 (Ev.callbackEv s2.pageCount)
                if t.depth = 0 ∧ page.links ≠ [] then
                  let expanded := selectExpansion env.normFn s3.visited [] page.links
                  let spawned := spawnChildren env s3 expanded
                  let s5 := setTask spawned.1 tid
                    { t with phase := TaskPhase.waitingChildren spawned.2 }
                  logEv s5 (Ev.spawnEv tid t.depth spawned.2)
                else finishTask s3 tid
      | TaskPhase.waitingChildren cids =>
          if cids.all (fun c =>
              match s.tasks[c]? with
              | some tc => tc.phase == TaskPhase.finished
              | none => false) then
            finishTask s tid
          else s
      | TaskPhase.semWait => s
      | TaskPhase.finished => s

def initSession : Session :=
  { tasks := [], visited := [], sem := Semaphore.init MAX_CONCURRENT,
    pageCount := 0, aborted := false, stopCalls := 0, events := [] }

/-- Model of `inspectQuestion`'s synchronous start: `seedUrls.map(url =>
processUrl(url, 0))`. -/
def sessionStart (env : SessionEnv) (seeds : List String) : Session :=
  seeds.foldl (fun s url => startTask env s url 0) initSession

/-- The session after an arbitrary finite schedule of task resumptions. -/
def sessionRun (env : SessionEnv) (seeds : List String) (sched : List Nat) :
    Session :=
  sched.foldl (resumeTask env) (sessionStart env seeds)

/-- Normalized forms of all fetches started in a trace. -/
def fetchNorms (evs : List Ev) : List String :=
  evs.filterMap (fun e =>
    match e with
    | Ev.fetchStart _ n => some n
    | _ => none)

/-- A task that has claimed its URL but not yet started fetching
contributes its normalized URL. -/
def preNorm (normFn : String → String) (t : UrlTask) : Option String :=
  match t.phase with
  | TaskPhase.semWait => some (normFn t.url)
  | TaskPhase.afterAcquire => some (normFn t.url)
  | TaskPhase.delaying => some (normFn t.url)
  | _ => none

def pendingNorms (normFn : String → String) (s : Session) : List String :=
  s.tasks.filterMap (preNorm normFn)

/-- Phases during which the task owns a Governor slot. -/
def phaseNeedsSlot : TaskPhase → Bool
  | TaskPhase.afterAcquire => true
  | TaskPhase.delaying => true
  | TaskPhase.fetching => true
  | TaskPhase.waitingChildren _ => true
  | TaskPhase.semWait => false
  | TaskPhase.finished => false

def countHolders (s : Session) : Nat :=
  (s.tasks.filter (fun t => t.holding)).length

/-! ### Session invariant -/

/-- Invariant bundle over every reachable session state. -/
structure SessInv (env : SessionEnv) (s : Session) : Prop where
  dedup : (fetchNorms s.events ++ pendingNorms env.normFn s).Nodup
  claimed : ∀ n ∈ fetchNorms s.events ++ pendingNorms env.normFn s, n ∈ s.visited
  holdPhase : ∀ (i : Nat) (t : UrlTask), s.tasks[i]? = some t →
      t.holding = phaseNeedsSlot t.phase
  semCount : s.sem.current = (countHolders s : Int)
  semCap : s.sem.current ≤ (s.sem.max : Int)
  semMax : s.sem.max = MAX_CONCURRENT
  doneBound : ∀ (i : Nat), Ev.doneEv i ∈ s.events → i < s.tasks.length
  doneIff : ∀ (i : Nat) (t : UrlTask), s.tasks[i]? = some t →
      (t.phase = TaskPhase.finished ↔ Ev.doneEv i ∈ s.events)
  spawnOk : ∀ (p d : Nat) (cs : List Nat), Ev.spawnEv p d cs ∈ s.events →
      d = 0 ∧ cs.length ≤ MAX_EXPANDED_URLS ∧
      (∀ c ∈ cs, ∃ tc : UrlTask, s.tasks[c]? = some tc ∧ tc.depth = 1)
  spawnWait : ∀ (p d : Nat) (cs : List Nat), Ev.spawnEv p d cs ∈ s.events →
      (∃ tp : UrlTask, s.tasks[p]? = some tp ∧
        tp.phase = TaskPhase.waitingChildren cs) ∨
      (∀ c ∈ cs, Ev.doneEv c ∈ s.events)
  releasedDone : ∀ (p : Nat), Ev.releaseEv p ∈ s.events →
      ∃ tp : UrlTask, s.tasks[p]? = some tp ∧ tp.phase = TaskPhase.finished
  noStore : ∀ (i : Nat), Ev.storeWriteEv i ∉ s.events
  queueOk : ∀ w ∈ s.sem.queue,
      ∃ tw : UrlTask, s.tasks[w]? = some tw ∧ tw.phase = TaskPhase.semWait
  queueNodup : s.sem.queue.Nodup

/-- Events classified as Durable Run Store writes. -/
def isStoreWrite : Ev → Bool
  | Ev.storeWriteEv _ => true
  | _ => false

/-- A concrete driving environment: the stop oracle never fires, the seed
page "a" has one outbound link "b", every other fetch misses, and URL
normalization is the identity. -/
def demoEnv : SessionEnv :=
  { stopFn := fun _ => false,
    fetchFn := fun u => if u = "a" then some { links := ["b"] } else none,
    normFn := fun u => u }

/-! ### URL normalization (`normalizeUrl`, lines 63–87) -/

/-- Longest prefix whose characters all fail `p`, together with the rest
(which is empty or starts with a character satisfying `p`). -/
def spanUntil (p : Char → Bool) : List Char → List Char × List Char
  | [] => ([], [])
  | c :: cs =>
      if p c then ([], c :: cs)
      else
        let r := spanUntil p cs
        (c :: r.1, r.2)

/-- Characters WHATWG allows in a scheme after the leading letter. -/
def isSchemeChar (c : Char) : Bool :=
  c.isAlpha || c.isDigit || c == '+' || c == '-' || c == '.'

/-- The components `new URL(...)` exposes for an absolute
`scheme://host...` URL. -/
structure UrlP where
  scheme : List Char
  host : List Char
  path : List Char
  query : Option (List Char)
  frag : Option (List Char)
deriving Repr, DecidableEq

/-- Model of `new URL(urlString)` for absolute special-scheme URLs: scheme up to
`:`, mandatory `//`, non-empty host up to `/` `?` `#`, path up to `?` `#`
(an absent path serializes as `/`), optional query up to `#`, optional
fragment. Inputs outside this shape make the constructor throw (`none`). -/
def parseUrl (cs : List Char) : Option UrlP :=
  let r0 := spanUntil (fun c => c == ':') cs
  match r0.2 with
  | c0 :: c1 :: c2 :: rest2 =>
      if c0 = ':' ∧ c1 = '/' ∧ c2 = '/' then
        if r0.1.isEmpty then none
        else if !(r0.1.all isSchemeChar) then none
        else if !(match r0.1 with | c :: _ => c.isAlpha | [] => false) then none
        else
          let r1 := spanUntil (fun c => c == '/' || c == '?' || c == '#') rest2
          if r1.1.isEmpty then none
          else
            let r2 := spanUntil (fun c => c == '?' || c == '#') r1.2
            let path := if r2.1.isEmpty then ['/'] else r2.1
            match r2.2 with
            | [] => some ⟨r0.1, r1.1, path, none, none⟩
            | c3 :: rest5 =>
                if c3 = '?' then
                  let r3 := spanUntil (fun c => c == '#') rest5
                  match r3.2 with
                  | [] => some ⟨r0.1, r1.1, path, some r3.1, none⟩
                  | _ :: f => some ⟨r0.1, r1.1, path, some r3.1, some f⟩
                else if c3 = '#' then some ⟨r0.1, r1.1, path, none, some rest5⟩
                else some ⟨r0.1, r1.1, path, none, none⟩
      else none
  | _ => none

/-- Model of `url.toString()`. -/
def serializeUrl (p : UrlP) : List Char :=
  p.scheme ++ ':' :: '/' :: '/' ::
    (p.host ++ (p.path ++
      ((match p.query with | none => [] | some q => '?' :: q) ++
        (match p.frag with | none => [] | some f => '#' :: f))))

/-- Characters form-urlencoding leaves verbatim. -/
def isSafeChar (c : Char) : Bool :=
  c.isAlpha || c.isDigit || c == '*' || c == '-' || c == '.' || c == '_'

def hexDigit (n : Nat) : Char :=
  if n < 10 then Char.ofNat (48 + n) else Char.ofNat (55 + n)

def hexVal (c : Char) : Option Nat :=
  if '0' ≤ c ∧ c ≤ '9' then some (c.toNat - 48)
  else if 'A' ≤ c ∧ c ≤ 'F' then some (c.toNat - 55)
  else none

/-- Fixed-width hex escape of a code point. The JS serializer
percent-escapes each UTF-8 byte as `%XX`; the model escapes the code
point in one fixed-width group, which keeps the escape injective without
modelling UTF-8 itself. -/
def toHex6 (n : Nat) : List Char :=
  [hexDigit (n / 1048576 % 16), hexDigit (n / 65536 % 16),
   hexDigit (n / 4096 % 16), hexDigit (n / 256 % 16),
   hexDigit (n / 16 % 16), hexDigit (n % 16)]

/-- Form-urlencoding of one character (`URLSearchParams.toString`): safe
characters verbatim, space as `+`, anything else escaped. -/
def encodeChar (c : Char) : List Char :=
  if isSafeChar c then [c]
  else if c == ' ' then ['+']
  else '%' :: toHex6 c.toNat

def encodeStr (cs : List Char) : List Char :=
  (cs.map encodeChar).flatten

/-- The value of one six-digit hex escape group. -/
def hexVal6 (l : List Char) : Option Nat :=
  match l with
  | [c1, c2, c3, c4, c5, c6] =>
      match hexVal c1, hexVal c2, hexVal c3, hexVal c4, hexVal c5, hexVal c6 with
      | some h1, some h2, some h3, some h4, some h5, some h6 =>
          some (((((h1 * 16 + h2) * 16 + h3) * 16 + h4) * 16 + h5) * 16 + h6)
      | _, _, _, _, _, _ => none
  | _ => none

/-- Form-urlencoded decoding, fuelled by the input length so the
recursion is structural: `+` back to space, `%`-escape back to the
character, malformed escapes kept verbatim. -/
def decodeAux : Nat → List Char → List Char
  | 0, _ => []
  | _ + 1, [] => []
  | fuel + 1, c :: cs =>
      if c = '+' then ' ' :: decodeAux fuel cs
      else if c = '%' then
        match hexVal6 (cs.take 6) with
        | some n => Char.ofNat n :: decodeAux fuel (cs.drop 6)
        | none => '%' :: decodeAux fuel cs
      else c :: decodeAux fuel cs

/-- Form-urlencoded decoding (`new URLSearchParams(...)` on each key and
value). -/
def decodeStr (cs : List Char) : List Char :=
  decodeAux cs.length cs

/-- Split a raw query on `&`. -/
def splitAmp : List Char → List (List Char)
  | [] => [[]]
  | c :: cs =>
      if c = '&' then [] :: splitAmp cs
      else
        match splitAmp cs with
        | [] => [[c]]
        | s :: ss => (c :: s) :: ss

def joinAmp : List (List Char) → List Char
  | [] => []
  | [s] => s
  | s :: ss => s ++ '&' :: joinAmp ss

/-- One `key=value` segment of a query (`value` empty when `=` is
absent), decoded. -/
def parsePair (seg : List Char) : List Char × List Char :=
  let r := spanUntil (fun c => c == '=') seg
  match r.2 with
  | '=' :: v => (decodeStr r.1, decodeStr v)
  | _ => (decodeStr r.1, [])

/-- Model of `new URLSearchParams(q).entries()`: split on `&`, drop empty
segments, decode each pair. -/
def parseParams (q : List Char) : List (List Char × List Char) :=
  (splitAmp q).filterMap (fun seg =>
    if seg.isEmpty then none else some (parsePair seg))

/-- The tracking-parameter filter: drop keys whose lowercase form starts
with `utm_` or equals `ref` or `fbclid`. -/
def keepParam (k : List Char) : Bool :=
  let lk := k.map Char.toLower
  !(List.isPrefixOf ['u', 't', 'm', '_'] lk) &&
    !(lk == ['r', 'e', 'f']) && !(lk == ['f', 'b', 'c', 'l', 'i', 'd'])

def filterParams (ps : List (List Char × List Char)) :
    List (List Char × List Char) :=
  ps.filter (fun kv => keepParam kv.1)

/-- The string JS compares when sorting entries: `String([key, value])`
is `key + "," + value`. -/
def pairKey (kv : List Char × List Char) : List Char :=
  kv.1 ++ ',' :: kv.2

/-- JS default string comparison: code-unit lexicographic (modelled on
code points). -/
def lexLe : List Char → List Char → Bool
  | [], _ => true
  | _ :: _, [] => false
  | a :: as, b :: bs =>
      if a = b then lexLe as bs
      else decide (a.toNat < b.toNat)

/-- Model of `[...filtered.entries()].sort()`: stable sort by the stringified
pair. -/
def sortParams (ps : List (List Char × List Char)) :
    List (List Char × List Char) :=
  ps.insertionSort (fun a b => lexLe (pairKey a) (pairKey b) = true)

def serializeParams (ps : List (List Char × List Char)) : List Char :=
  joinAmp (ps.map (fun kv => encodeStr kv.1 ++ '=' :: encodeStr kv.2))

/-- Parse, filter, sort and re-serialize a non-empty raw query. -/
def runParamPipeline (q : List Char) : List Char :=
  serializeParams (sortParams (filterParams (parseParams q)))

/-- Model of `.replace(/\/$/, '')`: drop one trailing slash, if any. -/
def stripSlash (cs : List Char) : List Char :=
  if cs.getLast? == some '/' then cs.dropLast else cs

/-- Model of `url.hash = ''` followed by the `if (url.search)` block: clear the
fragment and rewrite a non-empty query through the filter/sort pipeline
(`url.search = sortedParams.toString()`; an empty rewritten query removes
the query). -/
def rebuildQuery (p : UrlP) : UrlP :=
  match p.query with
  | some q =>
      if q.isEmpty then { p with frag := none }
      else
        let q2 := runParamPipeline q
        { p with frag := none,
                 query := if q2.isEmpty then none else some q2 }
  | none => { p with frag := none }

/-- Model of `normalizeUrl` on the character list: parse (returning the input
verbatim when the constructor throws), clear fragment and rewrite the
query, serialize, strip one trailing slash. -/
def normChars (cs : List Char) : List Char :=
  match parseUrl cs with
  | none => cs
  | some p => stripSlash (serializeUrl (rebuildQuery p))

def normalizeUrl (u : String) : String :=
  String.mk (normChars u.data)

/-- One serialized `key=value` segment. -/
def segOf (kv : List Char × List Char) : List Char :=
  encodeStr kv.1 ++ '=' :: encodeStr kv.2

/-- Shape constraints guaranteed for the components of a parsed URL and
required for serialization to parse back. -/
def goodScheme (s : List Char) : Bool :=
  !s.isEmpty && s.all isSchemeChar &&
    (match s with | c :: _ => c.isAlpha | [] => false)

def goodHost (h : List Char) : Bool :=
  !h.isEmpty && h.all (fun c => !(c == '/' || c == '?' || c == '#'))

def goodPath (p : List Char) : Bool :=
  (p.head? == some '/') && p.all (fun c => !(c == '?' || c == '#'))

def goodQueryChars (q : List Char) : Bool := q.all (fun c => !(c == '#'))

def goodUrl (p : UrlP) : Bool :=
  goodScheme p.scheme && goodHost p.host && goodPath p.path &&
    (match p.query with | none => true | some q => goodQueryChars q) &&
    (match p.frag with | none => true | some _ => false)

/-! ## Theorems -/

theorem semInv_init (max : Nat) :
    SemInv { sem := Semaphore.init max, nextStamp := 0 } := by
  refine ⟨?_, ?_, ?_⟩ <;> simp [Semaphore.init]

theorem semInv_step (r : SemRun) (op : SemOp) (h : SemInv r) :
    SemInv (semStep r op) := by
  obtain ⟨hcap, hsort, hlt⟩ := h
  cases op with
  | acq =>
      by_cases hc : r.sem.current < (r.sem.max : Int)
      · refine ⟨?_, ?_, ?_⟩ <;>
          simp [semStep, Semaphore.acquireOp, hc]
        · omega
        · exact hsort
        · intro x hx; exact Nat.lt_succ_of_lt (hlt x hx)
      · refine ⟨?_, ?_, ?_⟩ <;>
          simp [semStep, Semaphore.acquireOp, hc]
        · exact hcap
        · exact List.Chain'.append hsort (List.chain'_singleton _)
            (by intro x hx y hy
                simp at hy
                subst hy
                exact hlt x (List.mem_of_mem_getLast? hx))
        · intro x hx
          rcases hx with h | h
          · exact Nat.lt_succ_of_lt (hlt x h)
          · omega
  | rel =>
      cases hq : r.sem.queue with
      | nil =>
          refine ⟨?_, ?_, ?_⟩ <;>
            simp [semStep, Semaphore.releaseOp, hq]
          omega
      | cons w rest =>
          refine ⟨?_, ?_, ?_⟩ <;>
            simp [semStep, Semaphore.releaseOp, hq]
          · omega
          · rw [hq] at hsort
            exact hsort.tail
          · intro x hx
            exact hlt x (by rw [hq]; exact List.mem_cons_of_mem _ hx)

theorem semInv_runFrom (ops : List SemOp) (r : SemRun) (h : SemInv r) :
    SemInv (semRunFrom r ops) := by
  induction ops generalizing r with
  | nil => exact h
  | cons op ops ih => exact ih _ (semInv_step r op h)

theorem semInv_run (max : Nat) (ops : List SemOp) : SemInv (semRun max ops) :=
  semInv_runFrom ops _ (semInv_init max)

/-- C6: after any sequence of `acquire`/`release` operations on a
`Semaphore(max)`, the number of simultaneously held slots (`current`)
never exceeds `max`, and a `release` from the reached state wakes exactly
the front of the waiting queue — the caller with the minimal (earliest)
arrival stamp, i.e. the longest-waiting blocked caller, if any. -/
theorem semaphore_capacity_and_fifo (max : Nat) (ops : List SemOp) :
    (semRun max ops).sem.current ≤ (max : Int) ∧
    wakesLongestWaiting (semRun max ops).sem = true := by
  obtain ⟨hcap, hsort, _⟩ := semInv_run max ops
  have hmax : (semRun max ops).sem.max = max := by
    have : ∀ (r : SemRun) (l : List SemOp),
        (semRunFrom r l).sem.max = r.sem.max := by
      intro r l
      induction l generalizing r with
      | nil => rfl
      | cons op ops ih =>
          rw [semRunFrom, ih]
          cases op with
          | acq =>
              simp only [semStep, Semaphore.acquireOp]
              split <;> rfl
          | rel =>
              simp only [semStep, Semaphore.releaseOp]
              split <;> rfl
    exact this _ ops
  refine ⟨by omega, ?_⟩
  cases hq : (semRun max ops).sem.queue with
  | nil => simp [wakesLongestWaiting, Semaphore.releaseOp, hq]
  | cons w rest =>
      simp only [wakesLongestWaiting, Semaphore.releaseOp, hq]
      simp only [Bool.and_eq_true, beq_self_eq_true, true_and, List.all_eq_true,
        decide_eq_true_eq]
      intro x hx
      rw [hq] at hsort
      rcases List.mem_cons.mp hx with h | h
      · omega
      · have hp := List.chain'_iff_pairwise.mp hsort
        have := (List.pairwise_cons.mp hp).1 x h
        omega

/-- The chunk-by-chunk size guard is equivalent to a single check of the
total accumulated length: the loop fails exactly when the final
accumulated string exceeds `MAX_TEXT_LENGTH * 2` and at least one chunk
arrived, and otherwise returns the full concatenation. -/
theorem accumulateBody_spec (cs : List String) (data : String) :
    accumulateBody data cs =
      if (data ++ joinAll cs).length > MAX_TEXT_LENGTH * 2 ∧ cs ≠ [] then
        Except.error FetchErr.responseTooLarge
      else Except.ok (data ++ joinAll cs) := by
  induction cs generalizing data with
  | nil => simp [accumulateBody, joinAll]
  | cons c cs ih =>
      have hjoin : data ++ joinAll (c :: cs) = data ++ c ++ joinAll cs :=
        (String.append_assoc data c (joinAll cs)).symm
      rw [accumulateBody, hjoin]
      by_cases hbig : (data ++ c).length > MAX_TEXT_LENGTH * 2
      · rw [if_pos hbig,
          if_pos ⟨by rw [String.length_append]; omega, by simp⟩]
      · rw [if_neg hbig, ih]
        rcases eq_or_ne cs [] with hcs | hcs
        · subst hcs
          have heq : data ++ c ++ joinAll ([] : List String) = data ++ c := by
            simp [joinAll, String.append_empty]
          rw [heq, if_neg (by simp), if_neg (fun hcontra => hbig hcontra.1)]
        · simp [hcs]

/-- C8 counterexample: the claim says every 2xx final status is accepted,
but the code compares `statusCode !== 200`, so a final HTTP 201 response
with an HTML body is rejected with an HTTP-status error instead of
returning the body. -/
theorem fetch_rejects_status_201 :
    isRedirectResponse respCreated = false ∧
    200 ≤ respCreated.statusCode ∧ respCreated.statusCode < 300 ∧
    handleResponse respCreated =
      FetchResult.failure (FetchErr.httpStatus 201) := by
  decide

/-- C8 (amended): for every final (non-redirect) response, the fetcher
fails with an HTTP-status error exactly when the status is not exactly
200 (2xx statuses other than 200 are likewise rejected); when the status
is 200 it fails with the unsupported-content-type error exactly when the
`content-type` does not contain `text/html`; it fails with the
response-too-large error exactly when the accumulated body exceeds twice
the maximum text length before completion; and otherwise the full body is
returned. -/
theorem fetch_final_response_spec (r : HttpResponse)
    (hfin : isRedirectResponse r = false) :
    ((∃ c, handleResponse r = FetchResult.failure (FetchErr.httpStatus c)) ↔
      r.statusCode ≠ 200) ∧
    (handleResponse r = FetchResult.failure FetchErr.notHtml ↔
      (r.statusCode = 200 ∧
        containsSub (r.contentType.getD "").data "text/html".data = false)) ∧
    (handleResponse r = FetchResult.failure FetchErr.responseTooLarge ↔
      (r.statusCode = 200 ∧
        containsSub (r.contentType.getD "").data "text/html".data = true ∧
        (joinAll r.chunks).length > MAX_TEXT_LENGTH * 2 ∧ r.chunks ≠ [])) ∧
    (handleResponse r = FetchResult.success (joinAll r.chunks) ↔
      (r.statusCode = 200 ∧
        containsSub (r.contentType.getD "").data "text/html".data = true ∧
        ¬((joinAll r.chunks).length > MAX_TEXT_LENGTH * 2 ∧ r.chunks ≠ []))) := by
  have hbody := accumulateBody_spec r.chunks ""
  have hjoin : "" ++ joinAll r.chunks = joinAll r.chunks :=
    String.empty_append _
  rw [hjoin] at hbody
  unfold handleResponse
  rw [hfin]
  simp only [Bool.false_eq_true, if_false]
  by_cases h200 : r.statusCode = 200
  · simp only [h200, ne_eq, not_true_eq_false, if_false]
    by_cases hct : containsSub (r.contentType.getD "").data "text/html".data
    · simp only [hct, Bool.not_true, Bool.false_eq_true, if_false]
      rw [hbody]
      by_cases hlen : (joinAll r.chunks).length > MAX_TEXT_LENGTH * 2 ∧
          r.chunks ≠ []
      · rw [if_pos hlen]
        refine ⟨?_, ?_, ?_, ?_⟩ <;> simp_all
      · rw [if_neg hlen]
        refine ⟨?_, ?_, ?_, ?_⟩ <;> simp_all <;> exact hlen
    · simp only [Bool.not_eq_true] at hct
      simp only [hct, Bool.not_false, if_true]
      refine ⟨?_, ?_, ?_, ?_⟩ <;> simp_all
  · simp only [h200, ne_eq, not_false_eq_true, if_true]
    refine ⟨?_, ?_, ?_, ?_⟩ <;> simp_all

/-- Witness for the amended C8 theorem at a concrete final response. -/
theorem fetch_final_response_spec_witness :
    ((∃ c, handleResponse respPlainPage =
        FetchResult.failure (FetchErr.httpStatus c)) ↔
      respPlainPage.statusCode ≠ 200) ∧
    (handleResponse respPlainPage = FetchResult.failure FetchErr.notHtml ↔
      (respPlainPage.statusCode = 200 ∧
        containsSub (respPlainPage.contentType.getD "").data
          "text/html".data = false)) ∧
    (handleResponse respPlainPage =
        FetchResult.failure FetchErr.responseTooLarge ↔
      (respPlainPage.statusCode = 200 ∧
        containsSub (respPlainPage.contentType.getD "").data
          "text/html".data = true ∧
        (joinAll respPlainPage.chunks).length > MAX_TEXT_LENGTH * 2 ∧
        respPlainPage.chunks ≠ [])) ∧
    (handleResponse respPlainPage =
        FetchResult.success (joinAll respPlainPage.chunks) ↔
      (respPlainPage.statusCode = 200 ∧
        containsSub (respPlainPage.contentType.getD "").data
          "text/html".data = true ∧
        ¬((joinAll respPlainPage.chunks).length > MAX_TEXT_LENGTH * 2 ∧
          respPlainPage.chunks ≠ []))) :=
  fetch_final_response_spec respPlainPage (by decide)

theorem tmpPath_ne (p : String) : p ≠ p ++ ".tmp" := by
  intro h
  have hl := congrArg String.length h
  rw [String.length_append] at hl
  have h4 : (".tmp" : String).length = 4 := rfl
  omega

theorem fsRead_fsWrite_self (files : List (String × FileVal)) (p : String)
    (v : FileVal) : fsRead (fsWrite files p v) p = some v := by
  induction files with
  | nil => simp [fsWrite, fsRead]
  | cons kv rest ih =>
      obtain ⟨q, w⟩ := kv
      by_cases hq : q = p
      · simp [fsWrite, fsRead, hq]
      · simp [fsWrite, fsRead, hq, ih]

theorem fsRead_fsWrite_ne (files : List (String × FileVal)) (p q : String)
    (v : FileVal) (h : q ≠ p) :
    fsRead (fsWrite files p v) q = fsRead files q := by
  have hpq : ¬p = q := fun hh => h hh.symm
  induction files with
  | nil => simp [fsWrite, fsRead, hpq]
  | cons kv rest ih =>
      obtain ⟨r, w⟩ := kv
      by_cases hr : r = p
      · subst hr
        simp [fsWrite, fsRead, hpq]
      · simp only [fsWrite, if_neg hr, fsRead, ih]

theorem fsRead_fsRemove_self (files : List (String × FileVal)) (p : String) :
    fsRead (fsRemove files p) p = none := by
  induction files with
  | nil => rfl
  | cons kv rest ih =>
      obtain ⟨q, w⟩ := kv
      by_cases hq : q = p
      · simp [fsRemove, hq, ih]
      · simp [fsRemove, hq, fsRead, ih]

theorem fsRead_fsRemove_ne (files : List (String × FileVal)) (p q : String)
    (h : q ≠ p) : fsRead (fsRemove files p) q = fsRead files q := by
  induction files with
  | nil => rfl
  | cons kv rest ih =>
      obtain ⟨r, w⟩ := kv
      by_cases hr : r = p
      · subst hr
        have hne : ¬r = q := fun hh => h hh.symm
        simp [fsRemove, fsRead, hne, ih]
      · simp only [fsRemove, if_neg hr, fsRead, ih]

/-- C2: the atomic write primitive never succeeds.  Because `fs.promises`
has no `fsync` member, the forced-sync step throws on every call, so
`atomicWrite` always reports failure, always leaves the target file in
its previous state (or absent if never created), and (when not shut
down) removes the sibling temp file.  In particular there is **no** valid
path and content for which the primitive succeeds, contradicting the
claim's success case. -/
theorem atomicWrite_never_succeeds (st : StoreState) (path : String)
    (data : FileVal) :
    (atomicWrite st path data).2 = false ∧
    fsRead (atomicWrite st path data).1.fs path = fsRead st.fs path ∧
    (st.shutdownRequested = false →
      fsRead (atomicWrite st path data).1.fs (path ++ ".tmp") = none) := by
  by_cases hsd : st.shutdownRequested
  · simp [atomicWrite, hsd]
  · have hres : (atomicWrite st path data).1.fs =
        fsRemove (fsWrite st.fs (path ++ ".tmp") data) (path ++ ".tmp") ∧
        (atomicWrite st path data).2 = false := by
      constructor <;> simp [atomicWrite, hsd, fsPromisesFsyncCall]
    refine ⟨hres.2, ?_, ?_⟩
    · rw [hres.1, fsRead_fsRemove_ne _ _ _ (tmpPath_ne path),
        fsRead_fsWrite_ne _ _ _ _ (tmpPath_ne path)]
    · intro _
      rw [hres.1]
      exact fsRead_fsRemove_self _ _

/-- Witness: the failure behaviour of `atomicWrite` at a concrete fresh
store, path and content. -/
theorem atomicWrite_never_succeeds_witness :
    (atomicWrite emptyStore "runs/research/meta.json" FileVal.jarray).2 = false ∧
    fsRead (atomicWrite emptyStore "runs/research/meta.json" FileVal.jarray).1.fs
      "runs/research/meta.json" = fsRead emptyStore.fs "runs/research/meta.json" ∧
    fsRead (atomicWrite emptyStore "runs/research/meta.json" FileVal.jarray).1.fs
      ("runs/research/meta.json" ++ ".tmp") = none := by
  obtain ⟨h1, h2, h3⟩ :=
    atomicWrite_never_succeeds emptyStore "runs/research/meta.json" FileVal.jarray
  exact ⟨h1, h2, h3 rfl⟩

theorem savePage_canon (ps : List Nat) (p : Nat) :
    storeStep (canonPages ps) (StoreOp.opSavePage p) = canonPages (ps ++ [p]) := by
  simp [storeStep, savePageResult, canonPages, fsRead, fsWrite, fsRemove,
    atomicWrite, fsPromisesFsyncCall, runDir]

theorem foldl_savePage (qs ps : List Nat) :
    List.foldl storeStep (canonPages ps) (qs.map StoreOp.opSavePage) =
      canonPages (ps ++ qs) := by
  induction qs generalizing ps with
  | nil => simp
  | cons q qs ih =>
      rw [List.map_cons, List.foldl_cons, savePage_canon, ih]
      simp

theorem flush_canon (ps : List Nat) :
    storeStep (canonPages ps) StoreOp.opFlush =
      { fs := [("runs/research/pages.jsonl", FileVal.jlines ps)],
        currentRunPath := some "runs/research",
        metaData := some { topic := "research",
                           status := RunStatus.interrupted,
                           pageCount := ps.length, maxPages := 200 },
        shutdownRequested := true } := by
  simp [storeStep, storeFlush, canonPages, fsRead, atomicWrite]

/-- C3: after `initialize` and `N` processed `savePageResult` calls with
no `saveSynthesis`, `flush()` does **not** leave an on-disk meta with
`status == "interrupted"` and `pageCount == N`: no meta file exists on
disk at all (every atomic write fails for lack of `fs.promises.fsync`,
and the final attempt during `flush` is additionally refused because the
queue-closed flag was already set).  Only the in-memory metadata carries
the intended `interrupted` status and count `N`. -/
theorem flush_after_pages_meta_missing (ps : List Nat) :
    fsRead (storeRun (StoreOp.opInit "research" 200 ::
        (ps.map StoreOp.opSavePage ++ [StoreOp.opFlush]))).fs
      "runs/research/meta.json" = none ∧
    (storeRun (StoreOp.opInit "research" 200 ::
        (ps.map StoreOp.opSavePage ++ [StoreOp.opFlush]))).metaData =
      some { topic := "research", status := RunStatus.interrupted,
             pageCount := ps.length, maxPages := 200 } := by
  have h1 : storeRun (StoreOp.opInit "research" 200 ::
      (ps.map StoreOp.opSavePage ++ [StoreOp.opFlush])) =
      storeStep (canonPages ps) StoreOp.opFlush := by
    rw [storeRun, List.foldl_cons, List.foldl_append]
    have h0 : storeStep emptyStore (StoreOp.opInit "research" 200) =
        canonPages [] := by decide
    rw [h0, foldl_savePage]
    simp [List.foldl]
  rw [h1, flush_canon]
  refine ⟨?_, rfl⟩
  simp [fsRead]

/-- C4: a processed `saveSynthesis` reports success and marks the run
`completed` in the store's metadata, yet `final.json` does not exist on
disk (the atomic overwrite failed and its boolean result is ignored), so
the invariant "`final` is non-null iff `status == completed`" is violated
in the state the store itself acts on (`flush` reads `final.json` from
disk and the status from the in-memory metadata). -/
theorem synthesis_completed_but_final_absent :
    (storeRun [StoreOp.opInit "research" 200,
        StoreOp.opSaveSynthesis 7]).metaData =
      some { topic := "research", status := RunStatus.completed,
             pageCount := 0, maxPages := 200 } ∧
    fsRead (storeRun [StoreOp.opInit "research" 200,
        StoreOp.opSaveSynthesis 7]).fs "runs/research/final.json" = none ∧
    (saveSynthesis (storeRun [StoreOp.opInit "research" 200]) 7).2 = true := by
  decide

theorem set_decomp {α : Type _} (l : List α) (i : Nat) (a b : α)
    (h : l[i]? = some a) :
    ∃ l1 l2 : List α, l = l1 ++ a :: l2 ∧ l1.length = i ∧
      l.set i b = l1 ++ b :: l2 := by
  induction l generalizing i with
  | nil => simp at h
  | cons x xs ih =>
      cases i with
      | zero =>
          simp only [List.getElem?_cons_zero, Option.some.injEq] at h
          subst h
          exact ⟨[], xs, rfl, rfl, rfl⟩
      | succ j =>
          simp only [List.getElem?_cons_succ] at h
          obtain ⟨l1, l2, he, hlen, hset⟩ := ih j h
          exact ⟨x :: l1, l2, by simp [he], by simp [hlen], by simp [hset]⟩

theorem getElem?_set_self {α : Type _} (l : List α) (i : Nat) (a b : α)
    (h : l[i]? = some a) : (l.set i b)[i]? = some b := by
  obtain ⟨l1, l2, _, hlen, hset⟩ := set_decomp l i a b h
  subst hlen
  rw [hset]
  rw [List.getElem?_append, if_neg (by omega)]
  simp

theorem getElem?_set_ne {α : Type _} (l : List α) (i j : Nat) (b : α)
    (h : i ≠ j) : (l.set i b)[j]? = l[j]? := by
  induction l generalizing i j with
  | nil => simp
  | cons x xs ih =>
      cases i with
      | zero =>
          cases j with
          | zero => exact absurd rfl h
          | succ k => simp
      | succ i' =>
          cases j with
          | zero => simp
          | succ k =>
              simp only [List.set_cons_succ, List.getElem?_cons_succ]
              exact ih i' k (fun hh => h (by omega))

theorem getElem?_append_self {α : Type _} (l : List α) (xs : List α) (i : Nat)
    (h : i < l.length) : (l ++ xs)[i]? = l[i]? := by
  rw [List.getElem?_append]
  simp [h]

theorem sessInv_init (env : SessionEnv) : SessInv env initSession := by
  refine ⟨?_, ?_, ?_, ?_, ?_, ?_, ?_, ?_, ?_, ?_, ?_, ?_, ?_, ?_⟩ <;>
    simp [initSession, fetchNorms, pendingNorms, countHolders, Semaphore.init]

/-- The invariant reads only these session fields. -/
theorem sessInv_congr (env : SessionEnv) (s s' : Session) (h : SessInv env s)
    (ht : s'.tasks = s.tasks) (he : s'.events = s.events)
    (hv : s'.visited = s.visited) (hs : s'.sem = s.sem) : SessInv env s' := by
  obtain ⟨h1, h2, h3, h4, h5, h6, h7, h8, h9, h10, h11, h12, h13, h14⟩ := h
  exact ⟨by simpa [pendingNorms, he, ht] using h1,
         by simpa [pendingNorms, he, ht, hv] using h2,
         by simpa [ht] using h3,
         by simpa [countHolders, hs, ht] using h4,
         by simpa [hs] using h5,
         by simpa [hs] using h6,
         by simpa [he, ht] using h7,
         by simpa [he, ht] using h8,
         by simpa [he, ht] using h9,
         by simpa [he, ht] using h10,
         by simpa [he, ht] using h11,
         by simpa [he] using h12,
         by simpa [hs, ht] using h13,
         by simpa [hs] using h14⟩

theorem shouldAbortStep_fields (env : SessionEnv) (s : Session) :
    (shouldAbortStep env s).2.tasks = s.tasks ∧
    (shouldAbortStep env s).2.events = s.events ∧
    (shouldAbortStep env s).2.visited = s.visited ∧
    (shouldAbortStep env s).2.sem = s.sem ∧
    (shouldAbortStep env s).2.pageCount = s.pageCount := by
  unfold shouldAbortStep
  split
  · exact ⟨rfl, rfl, rfl, rfl, rfl⟩
  · split <;> exact ⟨rfl, rfl, rfl, rfl, rfl⟩

theorem sessInv_shouldAbort (env : SessionEnv) (s : Session) (h : SessInv env s) :
    SessInv env (shouldAbortStep env s).2 := by
  obtain ⟨ht, he, hv, hs, _⟩ := shouldAbortStep_fields env s
  exact sessInv_congr env s _ h ht he hv hs

theorem getElem?_append_single {α : Type _} (l : List α) (a : α) (i : Nat) :
    (l ++ [a])[i]? =
      if i < l.length then l[i]?
      else if i = l.length then some a else none := by
  by_cases h1 : i < l.length
  · rw [getElem?_append_self l [a] i h1, if_pos h1]
  · rw [if_neg h1]
    by_cases h2 : i = l.length
    · subst h2
      simp
    · rw [if_neg h2, List.getElem?_append_right (by omega)]
      have : i - l.length ≥ 1 := by omega
      match hm : i - l.length, this with
      | k + 1, _ => simp

theorem fetchNorms_append (l1 l2 : List Ev) :
    fetchNorms (l1 ++ l2) = fetchNorms l1 ++ fetchNorms l2 :=
  List.filterMap_append _ _ _

theorem pendingNorms_decomp (f : String → String) (s : Session) (tid : Nat)
    (t t' : UrlTask) (h : s.tasks[tid]? = some t) :
    ∃ P1 P2 : List String,
      pendingNorms f s = P1 ++ ((preNorm f t).toList ++ P2) ∧
      pendingNorms f (setTask s tid t') = P1 ++ ((preNorm f t').toList ++ P2) := by
  obtain ⟨l1, l2, he, _, hset⟩ := set_decomp s.tasks tid t t' h
  refine ⟨List.filterMap (preNorm f) l1, List.filterMap (preNorm f) l2, ?_, ?_⟩
  · rw [pendingNorms, he, List.filterMap_append, List.filterMap_cons]
    cases preNorm f t <;> simp
  · show List.filterMap (preNorm f) (s.tasks.set tid t') = _
    rw [hset, List.filterMap_append, List.filterMap_cons]
    cases preNorm f t' <;> simp

theorem pendingNorms_append_task (f : String → String) (s : Session)
    (t : UrlTask) :
    List.filterMap (preNorm f) (s.tasks ++ [t]) =
      pendingNorms f s ++ (preNorm f t).toList := by
  cases hp : preNorm f t <;>
    simp [pendingNorms, List.filterMap_append, List.filterMap_cons, hp]

theorem countHolders_decomp (s : Session) (tid : Nat) (t t' : UrlTask)
    (h : s.tasks[tid]? = some t) :
    ∃ n1 n2 : Nat,
      countHolders s = n1 + (if t.holding then 1 else 0) + n2 ∧
      countHolders (setTask s tid t') =
        n1 + (if t'.holding then 1 else 0) + n2 := by
  obtain ⟨l1, l2, he, _, hset⟩ := set_decomp s.tasks tid t t' h
  refine ⟨(l1.filter (fun x => x.holding)).length,
          (l2.filter (fun x => x.holding)).length, ?_, ?_⟩
  · rw [countHolders, he, List.filter_append, List.filter_cons]
    cases ht : t.holding <;> simp [List.length_append] <;> omega
  · show (List.filter (fun x => x.holding) (s.tasks.set tid t')).length = _
    rw [hset, List.filter_append, List.filter_cons]
    cases ht : t'.holding <;> simp [List.length_append] <;> omega

theorem countHolders_append (s : Session) (t : UrlTask) :
    (List.filter (fun x => x.holding) (s.tasks ++ [t])).length =
      countHolders s + (if t.holding then 1 else 0) := by
  rw [List.filter_append, List.length_append, countHolders]
  congr 1
  cases ht : t.holding <;> simp [List.filter_cons, ht]

theorem forall_getElem_append {α : Type _} {P : Nat → α → Prop}
    (l : List α) (a : α) (hl : ∀ i x, l[i]? = some x → P i x)
    (ha : P l.length a) : ∀ i x, (l ++ [a])[i]? = some x → P i x := by
  intro i x hx
  rcases Nat.lt_trichotomy i l.length with hi | hi | hi
  · rw [getElem?_append_self _ _ _ hi] at hx
    exact hl i x hx
  · subst hi
    rw [List.getElem?_concat_length] at hx
    injection hx with hh
    subst hh
    exact ha
  · rw [List.getElem?_append_right (by omega)] at hx
    obtain ⟨k, hk⟩ : ∃ k, i - l.length = k + 1 := ⟨i - l.length - 1, by omega⟩
    rw [hk] at hx
    simp at hx

theorem forall_getElem_set {α : Type _} {P : Nat → α → Prop}
    (l : List α) (j : Nat) (b : α) (hl : ∀ i x, l[i]? = some x → P i x)
    (hb : P j b) : ∀ i x, (l.set j b)[i]? = some x → P i x := by
  intro i x hx
  by_cases hij : j = i
  · subst hij
    by_cases hjl : j < l.length
    · rw [getElem?_set_self l j l[j] b (List.getElem?_eq_getElem hjl)] at hx
      injection hx with hh
      subst hh
      exact hb
    · rw [List.set_eq_of_length_le (by omega)] at hx
      exact hl j x hx
  · rw [getElem?_set_ne _ _ _ _ hij] at hx
    exact hl i x hx

theorem exists_task_set (l : List UrlTask) (j : Nat) (b : UrlTask)
    (hb : ∀ t, l[j]? = some t → b.depth = t.depth) (c : Nat)
    (h : ∃ tc, l[c]? = some tc ∧ tc.depth = 1) :
    ∃ tc, (l.set j b)[c]? = some tc ∧ tc.depth = 1 := by
  obtain ⟨tc, htc, hd⟩ := h
  by_cases hjc : j = c
  · subst hjc
    exact ⟨b, getElem?_set_self l j tc b htc, by rw [hb tc htc]; exact hd⟩
  · exact ⟨tc, by rw [getElem?_set_ne _ _ _ _ hjc]; exact htc, hd⟩

theorem exists_task_append (l : List UrlTask) (a : UrlTask) (c : Nat)
    (h : ∃ tc, l[c]? = some tc ∧ tc.depth = 1) :
    ∃ tc, (l ++ [a])[c]? = some tc ∧ tc.depth = 1 := by
  obtain ⟨tc, htc, hd⟩ := h
  have hc : c < l.length := by
    have := List.getElem?_eq_some.mp htc
    exact this.1
  exact ⟨tc, by rw [getElem?_append_self _ _ _ hc]; exact htc, hd⟩

theorem exists_pred_append (l : List UrlTask) (a : UrlTask)
    (P : UrlTask → Prop) (c : Nat)
    (h : ∃ tc, l[c]? = some tc ∧ P tc) :
    ∃ tc, (l ++ [a])[c]? = some tc ∧ P tc := by
  obtain ⟨tc, htc, hP⟩ := h
  have hc : c < l.length := (List.getElem?_eq_some.mp htc).1
  exact ⟨tc, by rw [getElem?_append_self _ _ _ hc]; exact htc, hP⟩

theorem exists_pred_set (l : List UrlTask) (j : Nat) (b : UrlTask)
    (P : UrlTask → Prop) (hb : ∀ t, l[j]? = some t → P t → P b) (c : Nat)
    (h : ∃ tc, l[c]? = some tc ∧ P tc) :
    ∃ tc, (l.set j b)[c]? = some tc ∧ P tc := by
  obtain ⟨tc, htc, hP⟩ := h
  by_cases hjc : j = c
  · subst hjc
    exact ⟨b, getElem?_set_self l j tc b htc, hb tc htc hP⟩
  · exact ⟨tc, by rw [getElem?_set_ne _ _ _ _ hjc]; exact htc, hP⟩

/-- Appending a fresh, already-terminated task together with its `doneEv`
(the early-return paths of `processUrl`) preserves the invariant. -/
theorem sessInv_append_done (env : SessionEnv) (s : Session) (h : SessInv env s)
    (url : String) (depth : Nat) :
    SessInv env
      { s with tasks := s.tasks ++ [⟨url, depth, TaskPhase.finished, false⟩],
               events := s.events ++ [Ev.doneEv s.tasks.length] } := by
  obtain ⟨hded, hcl, hhp, hsc, hcap, hmax, hdb, hdi, hso, hsw, hrd, hns,
    hqok, hqnd⟩ := h
  have hpend : List.filterMap (preNorm env.normFn)
      (s.tasks ++ [(⟨url, depth, TaskPhase.finished, false⟩ : UrlTask)]) =
      pendingNorms env.normFn s := by
    rw [pendingNorms_append_task]
    simp [preNorm]
  have hfn : fetchNorms (s.events ++ [Ev.doneEv s.tasks.length]) =
      fetchNorms s.events := by
    rw [fetchNorms_append]
    simp [fetchNorms]
  refine ⟨?_, ?_, ?_, ?_, ?_, ?_, ?_, ?_, ?_, ?_, ?_, ?_, ?_, ?_⟩
  · show (fetchNorms (s.events ++ _) ++
      List.filterMap (preNorm env.normFn) (s.tasks ++ _)).Nodup
    rw [hfn, hpend]
    exact hded
  · intro n hn
    show n ∈ s.visited
    rw [show pendingNorms env.normFn
        { s with tasks := s.tasks ++ [(⟨url, depth, TaskPhase.finished, false⟩ : UrlTask)],
                 events := s.events ++ [Ev.doneEv s.tasks.length] } =
        List.filterMap (preNorm env.normFn) (s.tasks ++
          [(⟨url, depth, TaskPhase.finished, false⟩ : UrlTask)]) from rfl,
      hfn, hpend] at hn
    exact hcl n hn
  · exact forall_getElem_append s.tasks _ hhp rfl
  · show s.sem.current = ((List.filter (fun t => t.holding) (s.tasks ++ _)).length : Int)
    rw [countHolders_append]
    simpa using hsc
  · exact hcap
  · exact hmax
  · intro i hi
    show i < (s.tasks ++ _).length
    rcases List.mem_append.mp hi with hi | hi
    · have := hdb i hi
      simp
      omega
    · simp at hi
      subst hi
      simp
  · intro i t hti
    have hstep : ∀ j x, (s.tasks ++
        [(⟨url, depth, TaskPhase.finished, false⟩ : UrlTask)])[j]? = some x →
        (x.phase = TaskPhase.finished ↔
          Ev.doneEv j ∈ s.events ++ [Ev.doneEv s.tasks.length]) := by
      apply forall_getElem_append
      · intro j x hx
        constructor
        · intro hfin
          exact List.mem_append.mpr (Or.inl ((hdi j x hx).mp hfin))
        · intro hmem
          rcases List.mem_append.mp hmem with hm | hm
          · exact (hdi j x hx).mpr hm
          · simp at hm
            obtain ⟨hj, -⟩ := List.getElem?_eq_some.mp hx
            omega
      · constructor
        · intro _
          exact List.mem_append.mpr (Or.inr (by simp))
        · intro _
          rfl
    exact hstep i t hti
  · intro p d cs hev
    have hev' : Ev.spawnEv p d cs ∈ s.events := by
      rcases List.mem_append.mp hev with hm | hm
      · exact hm
      · simp at hm
    obtain ⟨h1, h2, h3⟩ := hso p d cs hev'
    exact ⟨h1, h2, fun c hc => exists_task_append _ _ _ (h3 c hc)⟩
  · intro p d cs hev
    have hev' : Ev.spawnEv p d cs ∈ s.events := by
      rcases List.mem_append.mp hev with hm | hm
      · exact hm
      · simp at hm
    rcases hsw p d cs hev' with ⟨tp, htp, hph⟩ | hall
    · left
      have hp : p < s.tasks.length := (List.getElem?_eq_some.mp htp).1
      exact ⟨tp, by rw [getElem?_append_self _ _ _ hp]; exact htp, hph⟩
    · right
      intro c hc
      exact List.mem_append.mpr (Or.inl (hall c hc))
  · intro p hev
    have hev' : Ev.releaseEv p ∈ s.events := by
      rcases List.mem_append.mp hev with hm | hm
      · exact hm
      · simp at hm
    obtain ⟨tp, htp, hph⟩ := hrd p hev'
    have hp : p < s.tasks.length := (List.getElem?_eq_some.mp htp).1
    exact ⟨tp, by rw [getElem?_append_self _ _ _ hp]; exact htp, hph⟩
  · intro i hmem
    rcases List.mem_append.mp hmem with hm | hm
    · exact hns i hm
    · simp at hm
  · intro w hw
    exact exists_pred_append _ _ _ _ (hqok w hw)
  · exact hqnd

/-- Claiming a fresh normalized URL and attempting acquisition (the
claim branch of `processUrl`'s synchronous prefix) preserves the
invariant, for either acquisition outcome. -/
theorem sessInv_claim_generic (env : SessionEnv) (s : Session)
    (h : SessInv env s) (url : String) (depth : Nat)
    (hnew : s.visited.contains (env.normFn url) = false)
    (ph : TaskPhase) (hold : Bool)
    (hph : (ph = TaskPhase.afterAcquire ∧ hold = true) ∨
           (ph = TaskPhase.semWait ∧ hold = false))
    (sem' : Semaphore)
    (hsmax : sem'.max = s.sem.max)
    (hscount : sem'.current = s.sem.current + (if hold then 1 else 0))
    (hscap : sem'.current ≤ (sem'.max : Int))
    (hqueue : (hold = true ∧ sem'.queue = s.sem.queue) ∨
              (hold = false ∧ sem'.queue = s.sem.queue ++ [s.tasks.length])) :
    SessInv env
      { s with visited := s.visited ++ [env.normFn url],
               events := s.events ++ [Ev.claim s.tasks.length (env.normFn url)],
               sem := sem',
               tasks := s.tasks ++ [⟨url, depth, ph, hold⟩] } := by
  obtain ⟨hded, hcl, hhp, hsc, hcap, hmax, hdb, hdi, hso, hsw, hrd, hns,
    hqok, hqnd⟩ := h
  have hnotmem : env.normFn url ∉ s.visited := by simpa using hnew
  have hprenew : preNorm env.normFn ⟨url, depth, ph, hold⟩ =
      some (env.normFn url) := by
    rcases hph with ⟨hp, _⟩ | ⟨hp, _⟩ <;> subst hp <;> rfl
  have hfn : fetchNorms (s.events ++ [Ev.claim s.tasks.length (env.normFn url)]) =
      fetchNorms s.events := by
    rw [fetchNorms_append]
    simp [fetchNorms]
  have hpend : List.filterMap (preNorm env.normFn)
      (s.tasks ++ [(⟨url, depth, ph, hold⟩ : UrlTask)]) =
      pendingNorms env.normFn s ++ [env.normFn url] := by
    rw [pendingNorms_append_task, hprenew]
    rfl
  have hphase : phaseNeedsSlot ph = hold := by
    rcases hph with ⟨hp, ho⟩ | ⟨hp, ho⟩ <;> subst hp <;> subst ho <;> rfl
  have hqlt : ∀ w ∈ s.sem.queue, w < s.tasks.length := by
    intro w hw
    obtain ⟨tw, htw, _⟩ := hqok w hw
    exact (List.getElem?_eq_some.mp htw).1
  refine ⟨?_, ?_, ?_, ?_, ?_, ?_, ?_, ?_, ?_, ?_, ?_, ?_, ?_, ?_⟩
  · show (fetchNorms (s.events ++ _) ++
      List.filterMap (preNorm env.normFn) (s.tasks ++ _)).Nodup
    rw [hfn, hpend, ← List.append_assoc]
    rw [List.nodup_append]
    refine ⟨hded, List.nodup_singleton _, ?_⟩
    intro x hx hx1
    simp at hx1
    subst hx1
    exact hnotmem (hcl _ hx)
  · intro n hn
    show n ∈ s.visited ++ [env.normFn url]
    rw [show pendingNorms env.normFn
        { s with visited := s.visited ++ [env.normFn url],
                 events := s.events ++ [Ev.claim s.tasks.length (env.normFn url)],
                 sem := sem',
                 tasks := s.tasks ++ [(⟨url, depth, ph, hold⟩ : UrlTask)] } =
        List.filterMap (preNorm env.normFn)
          (s.tasks ++ [(⟨url, depth, ph, hold⟩ : UrlTask)]) from rfl,
      hfn, hpend] at hn
    rw [← List.append_assoc] at hn
    rcases List.mem_append.mp hn with hm | hm
    · exact List.mem_append.mpr (Or.inl (hcl n hm))
    · exact List.mem_append.mpr (Or.inr hm)
  · exact forall_getElem_append s.tasks _ hhp hphase.symm
  · show sem'.current =
      ((List.filter (fun t => t.holding) (s.tasks ++ _)).length : Int)
    rw [countHolders_append, hscount, hsc]
    push_cast
    ring
  · exact hscap
  · rw [hsmax]
    exact hmax
  · intro i hi
    show i < (s.tasks ++ _).length
    rcases List.mem_append.mp hi with hi | hi
    · have := hdb i hi
      simp
      omega
    · simp at hi
  · intro i t hti
    have hstep : ∀ j x, (s.tasks ++ [(⟨url, depth, ph, hold⟩ : UrlTask)])[j]? =
        some x →
        (x.phase = TaskPhase.finished ↔
          Ev.doneEv j ∈ s.events ++ [Ev.claim s.tasks.length (env.normFn url)]) := by
      apply forall_getElem_append
      · intro j x hx
        constructor
        · intro hfin
          exact List.mem_append.mpr (Or.inl ((hdi j x hx).mp hfin))
        · intro hmem
          rcases List.mem_append.mp hmem with hm | hm
          · exact (hdi j x hx).mpr hm
          · simp at hm
      · constructor
        · intro hfin
          rcases hph with ⟨hp, _⟩ | ⟨hp, _⟩ <;> subst hp <;> simp at hfin
        · intro hmem
          rcases List.mem_append.mp hmem with hm | hm
          · have := hdb _ hm
            omega
          · simp at hm
    exact hstep i t hti
  · intro p d cs hev
    have hev' : Ev.spawnEv p d cs ∈ s.events := by
      rcases List.mem_append.mp hev with hm | hm
      · exact hm
      · simp at hm
    obtain ⟨h1, h2, h3⟩ := hso p d cs hev'
    exact ⟨h1, h2, fun c hc => exists_task_append _ _ _ (h3 c hc)⟩
  · intro p d cs hev
    have hev' : Ev.spawnEv p d cs ∈ s.events := by
      rcases List.mem_append.mp hev with hm | hm
      · exact hm
      · simp at hm
    rcases hsw p d cs hev' with ⟨tp, htp, hphw⟩ | hall
    · left
      have hp : p < s.tasks.length := (List.getElem?_eq_some.mp htp).1
      exact ⟨tp, by rw [getElem?_append_self _ _ _ hp]; exact htp, hphw⟩
    · right
      intro c hc
      exact List.mem_append.mpr (Or.inl (hall c hc))
  · intro p hev
    have hev' : Ev.releaseEv p ∈ s.events := by
      rcases List.mem_append.mp hev with hm | hm
      · exact hm
      · simp at hm
    obtain ⟨tp, htp, hphr⟩ := hrd p hev'
    have hp : p < s.tasks.length := (List.getElem?_eq_some.mp htp).1
    exact ⟨tp, by rw [getElem?_append_self _ _ _ hp]; exact htp, hphr⟩
  · intro i hmem
    rcases List.mem_append.mp hmem with hm | hm
    · exact hns i hm
    · simp at hm
  · intro w hwq
    rcases hqueue with ⟨_, hqe⟩ | ⟨hho, hqe⟩
    · rw [hqe] at hwq
      exact exists_pred_append _ _ _ _ (hqok w hwq)
    · rw [hqe] at hwq
      rcases List.mem_append.mp hwq with hm | hm
      · exact exists_pred_append _ _ _ _ (hqok w hm)
      · simp at hm
        subst hm
        subst hho
        rcases hph with ⟨_, hcontra⟩ | ⟨hpw, _⟩
        · cases hcontra
        · subst hpw
          exact ⟨_, List.getElem?_concat_length _ _, rfl⟩
  · rcases hqueue with ⟨_, hqe⟩ | ⟨_, hqe⟩
    · rw [hqe]
      exact hqnd
    · rw [hqe, List.nodup_append]
      refine ⟨hqnd, List.nodup_singleton _, ?_⟩
      intro x hx hx1
      simp at hx1
      subst hx1
      exact absurd (hqlt _ hx) (by omega)

/-- The synchronous prefix of `processUrl` preserves the session
invariant. -/
theorem sessInv_startTask (env : SessionEnv) (s : Session) (h : SessInv env s)
    (url : String) (depth : Nat) : SessInv env (startTask env s url depth) := by
  have h1 := sessInv_shouldAbort env s h
  rcases hsa : shouldAbortStep env s with ⟨ab, s1⟩
  rw [hsa] at h1
  simp only at h1
  unfold startTask
  rw [hsa]
  simp only
  cases ab with
  | true =>
      simp only [if_true]
      exact sessInv_append_done env s1 h1 url depth
  | false =>
      simp only [Bool.false_eq_true, if_false]
      by_cases hvis : s1.visited.contains (env.normFn url)
      · rw [if_pos hvis]
        exact sessInv_append_done env s1 h1 url depth
      · rw [if_neg hvis]
        have hnew : s1.visited.contains (env.normFn url) = false := by
          simpa using hvis
        by_cases hc : s1.sem.current < (s1.sem.max : Int)
        · rw [if_pos hc]
          exact sessInv_claim_generic env s1 h1 url depth hnew
            TaskPhase.afterAcquire true (Or.inl ⟨rfl, rfl⟩)
            { s1.sem with current := s1.sem.current + 1 } rfl (by simp)
            (by show s1.sem.current + 1 ≤ (s1.sem.max : Int); omega)
            (Or.inl ⟨rfl, rfl⟩)
        · rw [if_neg hc]
          exact sessInv_claim_generic env s1 h1 url depth hnew
            TaskPhase.semWait false (Or.inr ⟨rfl, rfl⟩)
            { s1.sem with queue := s1.sem.queue ++ [s1.tasks.length] } rfl
            (by simp) h1.semCap (Or.inr ⟨rfl, rfl⟩)

theorem filterMap_set_decomp {α β : Type _} (f : α → Option β) (l : List α)
    (i : Nat) (a b : α) (h : l[i]? = some a) :
    ∃ L1 L2 : List β,
      List.filterMap f l = L1 ++ ((f a).toList ++ L2) ∧
      List.filterMap f (l.set i b) = L1 ++ ((f b).toList ++ L2) := by
  obtain ⟨l1, l2, he, _, hset⟩ := set_decomp l i a b h
  refine ⟨List.filterMap f l1, List.filterMap f l2, ?_, ?_⟩
  · rw [he, List.filterMap_append, List.filterMap_cons]
    cases f a <;> simp
  · rw [hset, List.filterMap_append, List.filterMap_cons]
    cases f b <;> simp

theorem count_holding_set (l : List UrlTask) (i : Nat) (a b : UrlTask)
    (h : l[i]? = some a) :
    ∃ n1 n2 : Nat,
      (l.filter (fun x => x.holding)).length =
        n1 + (if a.holding then 1 else 0) + n2 ∧
      ((l.set i b).filter (fun x => x.holding)).length =
        n1 + (if b.holding then 1 else 0) + n2 := by
  obtain ⟨l1, l2, he, _, hset⟩ := set_decomp l i a b h
  refine ⟨(l1.filter (fun x => x.holding)).length,
          (l2.filter (fun x => x.holding)).length, ?_, ?_⟩
  · rw [he, List.filter_append, List.filter_cons]
    cases ha : a.holding <;> simp [List.length_append] <;> omega
  · rw [hset, List.filter_append, List.filter_cons]
    cases hb : b.holding <;> simp [List.length_append] <;> omega

theorem forall_getElem_set_ne {α : Type _} {P : Nat → α → Prop}
    (l : List α) (j : Nat) (b : α)
    (hl : ∀ i x, i ≠ j → l[i]? = some x → P i x)
    (hb : P j b) (hj : j < l.length) :
    ∀ i x, (l.set j b)[i]? = some x → P i x := by
  intro i x hx
  by_cases hij : j = i
  · subst hij
    rw [getElem?_set_self l j l[j] b (List.getElem?_eq_getElem hj)] at hx
    injection hx with hh
    subst hh
    exact hb
  · rw [getElem?_set_ne _ _ _ _ hij] at hx
    exact hl i x (fun hh => hij hh.symm) hx

/-- Releasing the slot and resolving the task's promise preserves the
session invariant.  `hw` supplies the `Promise.all` guarantee: when the
finishing task was waiting on expansion children, they have all
terminated. -/
theorem sessInv_finishTask (env : SessionEnv) (s : Session) (tid : Nat)
    (t : UrlTask) (ht : s.tasks[tid]? = some t)
    (hp : phaseNeedsSlot t.phase = true)
    (hw : ∀ cs, t.phase = TaskPhase.waitingChildren cs → ∀ c ∈ cs,
        ∃ tc : UrlTask, s.tasks[c]? = some tc ∧
          tc.phase = TaskPhase.finished)
    (h : SessInv env s) : SessInv env (finishTask s tid) := by
  obtain ⟨hded, hcl, hhp, hsc, hcap, hmax, hdb, hdi, hso, hsw, hrd, hns,
    hqok, hqnd⟩ := h
  have htid_lt : tid < s.tasks.length := (List.getElem?_eq_some.mp ht).1
  have hhold : t.holding = true := by rw [hhp tid t ht, hp]
  have hnotfin : t.phase ≠ TaskPhase.finished := by
    intro hh
    rw [hh] at hp
    cases hp
  have hnotwait : t.phase ≠ TaskPhase.semWait := by
    intro hh
    rw [hh] at hp
    cases hp
  have hfn_evs : fetchNorms (s.events ++ [Ev.releaseEv tid, Ev.doneEv tid]) =
      fetchNorms s.events := by
    rw [fetchNorms_append]
    simp [fetchNorms]
  have hcase_evs : ∀ e : Ev,
      e ∈ s.events ++ [Ev.releaseEv tid, Ev.doneEv tid] →
      e ∈ s.events ∨ e = Ev.releaseEv tid ∨ e = Ev.doneEv tid := by
    intro e he
    rcases List.mem_append.mp he with hm | hm
    · exact Or.inl hm
    · simp at hm
      exact Or.inr hm
  have hin_evs : ∀ e : Ev, e ∈ s.events →
      e ∈ s.events ++ [Ev.releaseEv tid, Ev.doneEv tid] :=
    fun e he => List.mem_append.mpr (Or.inl he)
  have hdone_in : Ev.doneEv tid ∈ s.events ++ [Ev.releaseEv tid, Ev.doneEv tid] :=
    List.mem_append.mpr (Or.inr (by simp))
  obtain ⟨P1, P2, hP_old, hP_new⟩ := filterMap_set_decomp (preNorm env.normFn)
    s.tasks tid t { t with phase := TaskPhase.finished, holding := false } ht
  have hP_old' : pendingNorms env.normFn s =
      P1 ++ ((preNorm env.normFn t).toList ++ P2) := hP_old
  rw [hP_old'] at hded hcl
  have hpre_fin : (preNorm env.normFn
      { t with phase := TaskPhase.finished, holding := false }).toList = [] := rfl
  rw [hpre_fin, List.nil_append] at hP_new
  have hsubC : List.Sublist (fetchNorms s.events ++ (P1 ++ P2))
      (fetchNorms s.events ++ (P1 ++ ((preNorm env.normFn t).toList ++ P2))) :=
    List.Sublist.append_left
      (List.Sublist.append_left (List.sublist_append_right _ _) P1) _
  obtain ⟨n1, n2, hc_old, hc_new⟩ := count_holding_set s.tasks tid t
    { t with phase := TaskPhase.finished, holding := false } ht
  rw [hhold, if_pos rfl] at hc_old
  have hc_new' : ((s.tasks.set tid
      { t with phase := TaskPhase.finished, holding := false }).filter
        (fun x => x.holding)).length = n1 + n2 := by
    simpa using hc_new
  have hcount_old : countHolders s = n1 + 1 + n2 := hc_old
  rw [hcount_old] at hsc
  have hhp_new : ∀ (i : Nat) (x : UrlTask), (s.tasks.set tid
      { t with phase := TaskPhase.finished, holding := false })[i]? = some x →
      x.holding = phaseNeedsSlot x.phase := by
    apply forall_getElem_set_ne
    · intro i x _ hx
      exact hhp i x hx
    · rfl
    · exact htid_lt
  have hdi_new : ∀ (j : Nat) (x : UrlTask), (s.tasks.set tid
      { t with phase := TaskPhase.finished, holding := false })[j]? = some x →
      (x.phase = TaskPhase.finished ↔
        Ev.doneEv j ∈ s.events ++ [Ev.releaseEv tid, Ev.doneEv tid]) := by
    apply forall_getElem_set_ne
    · intro i x hne hx
      constructor
      · intro hfin
        exact hin_evs _ ((hdi i x hx).mp hfin)
      · intro hm
        rcases hcase_evs _ hm with hm | hm | hm
        · exact (hdi i x hx).mpr hm
        · cases hm
        · injection hm with hh
          exact absurd hh hne
    · exact ⟨fun _ => hdone_in, fun _ => rfl⟩
    · exact htid_lt
  have hso_new : ∀ (p d : Nat) (cs : List Nat),
      Ev.spawnEv p d cs ∈ s.events ++ [Ev.releaseEv tid, Ev.doneEv tid] →
      d = 0 ∧ cs.length ≤ MAX_EXPANDED_URLS ∧
      ∀ c ∈ cs, ∃ tc : UrlTask, (s.tasks.set tid
        { t with phase := TaskPhase.finished, holding := false })[c]? = some tc ∧
        tc.depth = 1 := by
    intro p d cs hev
    rcases hcase_evs _ hev with hev | hev | hev
    · obtain ⟨h1, h2, h3⟩ := hso p d cs hev
      refine ⟨h1, h2, fun c hc => ?_⟩
      refine exists_task_set _ _ _ ?_ c (h3 c hc)
      intro t' ht'
      rw [ht] at ht'
      injection ht' with hh
      rw [hh]
    · cases hev
    · cases hev
  have hrd_new : ∀ (p : Nat),
      Ev.releaseEv p ∈ s.events ++ [Ev.releaseEv tid, Ev.doneEv tid] →
      ∃ tp : UrlTask, (s.tasks.set tid
        { t with phase := TaskPhase.finished, holding := false })[p]? = some tp ∧
        tp.phase = TaskPhase.finished := by
    intro p hev
    rcases hcase_evs _ hev with hev | hev | hev
    · obtain ⟨tp, htp, hphp⟩ := hrd p hev
      have hptid : tid ≠ p := by
        intro hh
        subst hh
        have := ht.symm.trans htp
        injection this with hh2
        rw [← hh2] at hphp
        exact hnotfin hphp
      exact ⟨tp, by rw [getElem?_set_ne _ _ _ _ hptid]; exact htp, hphp⟩
    · injection hev with hh
      subst hh
      exact ⟨_, getElem?_set_self _ _ _ _ ht, rfl⟩
    · cases hev
  have hsw_new : ∀ (p d : Nat) (cs : List Nat),
      Ev.spawnEv p d cs ∈ s.events ++ [Ev.releaseEv tid, Ev.doneEv tid] →
      (∃ tp : UrlTask, (s.tasks.set tid
          { t with phase := TaskPhase.finished, holding := false })[p]? = some tp ∧
        tp.phase = TaskPhase.waitingChildren cs) ∨
      (∀ c ∈ cs, Ev.doneEv c ∈ s.events ++ [Ev.releaseEv tid, Ev.doneEv tid]) := by
    intro p d cs hev
    rcases hcase_evs _ hev with hev | hev | hev
    · rcases hsw p d cs hev with ⟨tp, htp, hphp⟩ | hall
      · by_cases hpt : p = tid
        · subst hpt
          have := ht.symm.trans htp
          injection this with hh
          rw [← hh] at hphp
          right
          intro c hc
          obtain ⟨tc, htc, hfc⟩ := hw cs hphp c hc
          exact hin_evs _ ((hdi c tc htc).mp hfc)
        · left
          exact ⟨tp, by
            rw [getElem?_set_ne _ _ _ _ (fun hh => hpt hh.symm)]
            exact htp, hphp⟩
      · right
        exact fun c hc => hin_evs _ (hall c hc)
    · cases hev
    · cases hev
  have hdb_new : ∀ (i : Nat),
      Ev.doneEv i ∈ s.events ++ [Ev.releaseEv tid, Ev.doneEv tid] →
      i < s.tasks.length := by
    intro i hi
    rcases hcase_evs _ hi with hm | hm | hm
    · exact hdb i hm
    · cases hm
    · injection hm with hh
      rw [hh]
      exact htid_lt
  have hns_new : ∀ (i : Nat),
      Ev.storeWriteEv i ∉ s.events ++ [Ev.releaseEv tid, Ev.doneEv tid] := by
    intro i hm
    rcases hcase_evs _ hm with hm | hm | hm
    · exact hns i hm
    · cases hm
    · cases hm
  unfold finishTask
  rw [ht]
  simp only
  rcases hq : s.sem.queue with _ | ⟨w, rest⟩
  · -- no waiter: decrement the semaphore
    refine ⟨?_, ?_, ?_, ?_, ?_, ?_, ?_, ?_, ?_, ?_, ?_, ?_, ?_, ?_⟩
    · show (fetchNorms (s.events ++ [Ev.releaseEv tid, Ev.doneEv tid]) ++
        List.filterMap (preNorm env.normFn) (s.tasks.set tid
          { t with phase := TaskPhase.finished, holding := false })).Nodup
      rw [hfn_evs, hP_new]
      exact List.Nodup.sublist hsubC hded
    · intro n hn
      show n ∈ s.visited
      have hn' : n ∈ fetchNorms (s.events ++ [Ev.releaseEv tid, Ev.doneEv tid]) ++
          List.filterMap (preNorm env.normFn) (s.tasks.set tid
            { t with phase := TaskPhase.finished, holding := false }) := hn
      rw [hfn_evs, hP_new] at hn'
      exact hcl n (hsubC.mem hn')
    · exact hhp_new
    · show s.sem.current - 1 = (((s.tasks.set tid
        { t with phase := TaskPhase.finished, holding := false }).filter
          (fun x => x.holding)).length : Int)
      rw [hc_new']
      omega
    · show s.sem.current - 1 ≤ (s.sem.max : Int)
      omega
    · exact hmax
    · intro i hi
      show i < (s.tasks.set tid _).length
      rw [List.length_set]
      exact hdb_new i hi
    · exact hdi_new
    · exact hso_new
    · exact hsw_new
    · exact hrd_new
    · exact hns_new
    · intro w hwq
      have : w ∈ ([] : List Nat) := hwq
      simp at this
    · exact List.nodup_nil
  · -- wake the front waiter
    obtain ⟨tw, htw0, htwp⟩ := hqok w (by rw [hq]; exact List.mem_cons_self w rest)
    have hwtid : tid ≠ w := by
      intro hh
      subst hh
      have := ht.symm.trans htw0
      injection this with hh2
      rw [← hh2] at htwp
      exact hnotwait htwp
    have htw1 : (s.tasks.set tid
        { t with phase := TaskPhase.finished, holding := false })[w]? = some tw := by
      rw [getElem?_set_ne _ _ _ _ hwtid]
      exact htw0
    have htw_hold : tw.holding = false := by
      rw [hhp w tw htw0, htwp]
      rfl
    have hw_lt1 : w < (s.tasks.set tid
        { t with phase := TaskPhase.finished, holding := false }).length :=
      (List.getElem?_eq_some.mp htw1).1
    dsimp only
    rw [htw1]
    dsimp only
    rw [if_pos htwp]
    obtain ⟨Q1, Q2, hQ_old, hQ_new⟩ := filterMap_set_decomp (preNorm env.normFn)
      (s.tasks.set tid { t with phase := TaskPhase.finished, holding := false })
      w tw { tw with phase := TaskPhase.afterAcquire, holding := true } htw1
    have hpre_eq : preNorm env.normFn
        { tw with phase := TaskPhase.afterAcquire, holding := true } =
        preNorm env.normFn tw := by
      show some (env.normFn tw.url) = _
      unfold preNorm
      rw [htwp]
    have hpend_B : List.filterMap (preNorm env.normFn)
        ((s.tasks.set tid
          { t with phase := TaskPhase.finished, holding := false }).set w
          { tw with phase := TaskPhase.afterAcquire, holding := true }) =
        P1 ++ P2 := by
      rw [hQ_new, hpre_eq, ← hQ_old, hP_new]
    obtain ⟨m1, m2, hcB_old, hcB_new⟩ := count_holding_set
      (s.tasks.set tid { t with phase := TaskPhase.finished, holding := false })
      w tw { tw with phase := TaskPhase.afterAcquire, holding := true } htw1
    rw [htw_hold] at hcB_old
    simp at hcB_old
    rw [hc_new'] at hcB_old
    have hcB_new' : (((s.tasks.set tid
        { t with phase := TaskPhase.finished, holding := false }).set w
        { tw with phase := TaskPhase.afterAcquire, holding := true }).filter
          (fun x => x.holding)).length = m1 + 1 + m2 := by
      simpa using hcB_new
    refine ⟨?_, ?_, ?_, ?_, ?_, ?_, ?_, ?_, ?_, ?_, ?_, ?_, ?_, ?_⟩
    · show (fetchNorms (s.events ++ [Ev.releaseEv tid, Ev.doneEv tid]) ++
        List.filterMap (preNorm env.normFn) _).Nodup
      rw [hfn_evs, hpend_B]
      exact List.Nodup.sublist hsubC hded
    · intro n hn
      show n ∈ s.visited
      have hn' : n ∈ fetchNorms (s.events ++ [Ev.releaseEv tid, Ev.doneEv tid]) ++
          List.filterMap (preNorm env.normFn)
            ((s.tasks.set tid
              { t with phase := TaskPhase.finished, holding := false }).set w
              { tw with phase := TaskPhase.afterAcquire, holding := true }) := hn
      rw [hfn_evs, hpend_B] at hn'
      exact hcl n (hsubC.mem hn')
    · apply forall_getElem_set_ne _ _ _ (fun i x _ hx => hhp_new i x hx) rfl hw_lt1
    · show s.sem.current - 1 + 1 = ((((s.tasks.set tid
        { t with phase := TaskPhase.finished, holding := false }).set w
        { tw with phase := TaskPhase.afterAcquire, holding := true }).filter
          (fun x => x.holding)).length : Int)
      rw [hcB_new']
      omega
    · show s.sem.current - 1 + 1 ≤ (s.sem.max : Int)
      omega
    · exact hmax
    · intro i hi
      show i < ((s.tasks.set tid _).set w _).length
      rw [List.length_set, List.length_set]
      exact hdb_new i hi
    · apply forall_getElem_set_ne _ _ _ (fun i x hne hx => hdi_new i x hx) ?_ hw_lt1
      constructor
      · intro hh
        cases hh
      · intro hm
        exfalso
        rcases hcase_evs _ hm with hm | hm | hm
        · have := (hdi w tw htw0).mpr hm
          rw [htwp] at this
          cases this
        · cases hm
        · injection hm with hh
          exact hwtid hh.symm
    · intro p d cs hev
      obtain ⟨h1, h2, h3⟩ := hso_new p d cs hev
      refine ⟨h1, h2, fun c hc => ?_⟩
      refine exists_task_set _ _ _ ?_ c (h3 c hc)
      intro t' ht'
      rw [htw1] at ht'
      injection ht' with hh
      rw [hh]
    · intro p d cs hev
      rcases hsw_new p d cs hev with ⟨tp, htp, hphp⟩ | hall
      · left
        have hpw : w ≠ p := by
          intro hh
          subst hh
          rw [htw1] at htp
          injection htp with hh2
          rw [← hh2] at hphp
          rw [htwp] at hphp
          cases hphp
        exact ⟨tp, by rw [getElem?_set_ne _ _ _ _ hpw]; exact htp, hphp⟩
      · right
        exact hall
    · intro p hev
      obtain ⟨tp, htp, hphp⟩ := hrd_new p hev
      have hpw : w ≠ p := by
        intro hh
        subst hh
        rw [htw1] at htp
        injection htp with hh2
        rw [← hh2] at hphp
        rw [htwp] at hphp
        cases hphp
      exact ⟨tp, by rw [getElem?_set_ne _ _ _ _ hpw]; exact htp, hphp⟩
    · exact hns_new
    · intro w' hw'
      have hw'q : w' ∈ s.sem.queue := by
        rw [hq]
        exact List.mem_cons_of_mem _ hw'
      obtain ⟨tw', htw', hphw'⟩ := hqok w' hw'q
      have htid' : tid ≠ w' := by
        intro hh
        subst hh
        have := ht.symm.trans htw'
        injection this with hh2
        rw [← hh2] at hphw'
        exact hnotwait hphw'
      have hww' : w ≠ w' := by
        intro hh
        subst hh
        rw [hq] at hqnd
        exact (List.nodup_cons.mp hqnd).1 hw'
      refine ⟨tw', ?_, hphw'⟩
      rw [getElem?_set_ne _ _ _ _ hww', getElem?_set_ne _ _ _ _ htid']
      exact htw'
    · show rest.Nodup
      rw [hq] at hqnd
      exact (List.nodup_cons.mp hqnd).2

/-- The success path's `pageCount++; onPageCountUpdate(pageCount)`
preserves the invariant: only the counter and the event log (with a
callback event) change. -/
theorem sessInv_callback (env : SessionEnv) (s : Session) (h : SessInv env s)
    (n : Nat) :
    SessInv env { s with pageCount := s.pageCount + 1,
                         events := s.events ++ [Ev.callbackEv n] } := by
  obtain ⟨hded, hcl, hhp, hsc, hcap, hmax, hdb, hdi, hso, hsw, hrd, hns,
    hqok, hqnd⟩ := h
  have hfn : fetchNorms (s.events ++ [Ev.callbackEv n]) = fetchNorms s.events := by
    rw [fetchNorms_append]
    simp [fetchNorms]
  have hcase : ∀ e : Ev, e ∈ s.events ++ [Ev.callbackEv n] →
      e ∈ s.events ∨ e = Ev.callbackEv n := by
    intro e he
    rcases List.mem_append.mp he with hm | hm
    · exact Or.inl hm
    · simp at hm
      exact Or.inr hm
  refine ⟨?_, ?_, hhp, hsc, hcap, hmax, ?_, ?_, ?_, ?_, ?_, ?_, hqok, hqnd⟩
  · show (fetchNorms (s.events ++ [Ev.callbackEv n]) ++
      pendingNorms env.normFn s).Nodup
    rw [hfn]
    exact hded
  · intro x hx
    show x ∈ s.visited
    have hx' : x ∈ fetchNorms (s.events ++ [Ev.callbackEv n]) ++
        pendingNorms env.normFn s := hx
    rw [hfn] at hx'
    exact hcl x hx'
  · intro i hi
    rcases hcase _ hi with hm | hm
    · exact hdb i hm
    · cases hm
  · intro i t hti
    constructor
    · intro hfin
      exact List.mem_append.mpr (Or.inl ((hdi i t hti).mp hfin))
    · intro hm
      rcases hcase _ hm with hm | hm
      · exact (hdi i t hti).mpr hm
      · cases hm
  · intro p d cs hev
    rcases hcase _ hev with hm | hm
    · exact hso p d cs hm
    · cases hm
  · intro p d cs hev
    rcases hcase _ hev with hm | hm
    · rcases hsw p d cs hm with hl | hr
      · exact Or.inl hl
      · exact Or.inr fun c hc => List.mem_append.mpr (Or.inl (hr c hc))
    · cases hm
  · intro p hev
    rcases hcase _ hev with hm | hm
    · exact hrd p hm
    · cases hm
  · intro i hm
    rcases hcase _ hm with hm | hm
    · exact hns i hm
    · cases hm

/-- Lemma: `startTask` only appends one task (with the given depth) and extends
the event log and the visited set. -/
theorem startTask_extends (env : SessionEnv) (s : Session) (url : String)
    (depth : Nat) :
    ∃ (nt : UrlTask) (etail : List Ev) (vtail : List String),
      (startTask env s url depth).tasks = s.tasks ++ [nt] ∧ nt.depth = depth ∧
      (startTask env s url depth).events = s.events ++ etail ∧
      (startTask env s url depth).visited = s.visited ++ vtail := by
  rcases hsa : shouldAbortStep env s with ⟨ab, s1⟩
  obtain ⟨hts, hes, hvs, _, _⟩ := shouldAbortStep_fields env s
  rw [hsa] at hts hes hvs
  simp only at hts hes hvs
  unfold startTask
  rw [hsa]
  simp only
  cases ab with
  | true =>
      simp only [if_true]
      exact ⟨_, [Ev.doneEv s1.tasks.length], [],
        by rw [hts], rfl, by rw [hes], by simp [hvs]⟩
  | false =>
      simp only [Bool.false_eq_true, if_false]
      by_cases hvis : s1.visited.contains (env.normFn url)
      · rw [if_pos hvis]
        exact ⟨_, [Ev.doneEv s1.tasks.length], [],
          by rw [hts], rfl, by rw [hes], by simp [hvs]⟩
      · rw [if_neg hvis]
        by_cases hc : s1.sem.current < (s1.sem.max : Int)
        · rw [if_pos hc]
          exact ⟨_, [Ev.claim s1.tasks.length (env.normFn url)],
            [env.normFn url], by rw [hts], rfl, by rw [hes], by rw [hvs]⟩
        · rw [if_neg hc]
          exact ⟨_, [Ev.claim s1.tasks.length (env.normFn url)],
            [env.normFn url], by rw [hts], rfl, by rw [hes], by rw [hvs]⟩

/-- Lemma: `spawnChildren` preserves the invariant, appends exactly one task per
spawned URL, and every returned child id points at a depth-1 task. -/
theorem spawnChildren_spec (env : SessionEnv) :
    ∀ (us : List String) (s : Session), SessInv env s →
      SessInv env (spawnChildren env s us).1 ∧
      (spawnChildren env s us).2.length = us.length ∧
      (∃ ts, (spawnChildren env s us).1.tasks = s.tasks ++ ts) ∧
      (∃ etail, (spawnChildren env s us).1.events = s.events ++ etail) ∧
      (∀ c ∈ (spawnChildren env s us).2,
        ∃ tc : UrlTask, (spawnChildren env s us).1.tasks[c]? = some tc ∧
          tc.depth = 1) := by
  intro us
  induction us with
  | nil =>
      intro s h
      exact ⟨h, rfl, ⟨[], by simp [spawnChildren]⟩,
        ⟨[], by simp [spawnChildren]⟩, by simp [spawnChildren]⟩
  | cons u us ih =>
      intro s h
      obtain ⟨nt, etail, vtail, hts, hdep, hes, hvs⟩ :=
        startTask_extends env s u 1
      obtain ⟨ih1, ih2, ⟨ts2, ihts⟩, ⟨etail2, ihes⟩, ih5⟩ :=
        ih (startTask env s u 1) (sessInv_startTask env s h u 1)
      have hres : spawnChildren env s (u :: us) =
          ((spawnChildren env (startTask env s u 1) us).1,
            s.tasks.length :: (spawnChildren env (startTask env s u 1) us).2) := by
        rfl
      rw [hres]
      refine ⟨ih1, by simp [ih2], ⟨nt :: ts2, ?_⟩, ⟨etail ++ etail2, ?_⟩, ?_⟩
      · rw [ihts, hts]
        simp
      · rw [ihes, hes]
        simp
      · intro c hc
        rcases List.mem_cons.mp hc with hc | hc
        · subst hc
          have : (startTask env s u 1).tasks[s.tasks.length]? = some nt := by
            rw [hts]
            exact List.getElem?_concat_length _ _
          obtain ⟨tc, htc, hdc⟩ : ∃ tc : UrlTask,
              (spawnChildren env (startTask env s u 1) us).1.tasks[s.tasks.length]? =
                some tc ∧ tc.depth = 1 := by
            rw [ihts, hts]
            refine ⟨nt, ?_, hdep⟩
            rw [List.append_assoc, List.getElem?_append_right (Nat.le_refl _)]
            simp
          exact ⟨tc, htc, hdc⟩
        · exact ih5 c hc

theorem selectExpansion_length (normFn : String → String)
    (visited : List String) :
    ∀ (links acc : List String), acc.length ≤ MAX_EXPANDED_URLS →
      (selectExpansion normFn visited acc links).length ≤ MAX_EXPANDED_URLS := by
  intro links
  induction links with
  | nil => intro acc hacc; exact hacc
  | cons l ls ih =>
      intro acc hacc
      rw [selectExpansion]
      by_cases hfull : acc.length ≥ MAX_EXPANDED_URLS
      · rw [if_pos hfull]
        exact hacc
      · rw [if_neg hfull]
        by_cases hvis : visited.contains (normFn l)
        · rw [if_pos hvis]
          exact ih acc hacc
        · rw [if_neg hvis]
          exact ih (acc ++ [l]) (by simp; omega)

theorem selectExpansion_mem (normFn : String → String)
    (visited : List String) :
    ∀ (links acc : List String),
      ∀ l ∈ selectExpansion normFn visited acc links,
        l ∈ acc ∨ (l ∈ links ∧ normFn l ∉ visited) := by
  intro links
  induction links with
  | nil =>
      intro acc l hl
      exact Or.inl hl
  | cons x ls ih =>
      intro acc l hl
      rw [selectExpansion] at hl
      by_cases hfull : acc.length ≥ MAX_EXPANDED_URLS
      · rw [if_pos hfull] at hl
        exact Or.inl hl
      · rw [if_neg hfull] at hl
        by_cases hvis : visited.contains (normFn x)
        · rw [if_pos hvis] at hl
          rcases ih acc l hl with hm | ⟨hm1, hm2⟩
          · exact Or.inl hm
          · exact Or.inr ⟨List.mem_cons_of_mem _ hm1, hm2⟩
        · rw [if_neg hvis] at hl
          rcases ih (acc ++ [x]) l hl with hm | ⟨hm1, hm2⟩
          · rcases List.mem_append.mp hm with hm | hm
            · exact Or.inl hm
            · simp at hm
              subst hm
              exact Or.inr ⟨List.mem_cons_self _ _, by simpa using hvis⟩
          · exact Or.inr ⟨List.mem_cons_of_mem _ hm1, hm2⟩

/-- The depth-0 fan-out (lines 346–359): select unclaimed links, spawn
depth-1 children, move the parent to `waitingChildren`, record the spawn
event.  Preserves the invariant. -/
theorem sessInv_expand (env : SessionEnv) (s : Session) (tid : Nat)
    (t : UrlTask) (ht : s.tasks[tid]? = some t)
    (hph : t.phase = TaskPhase.fetching) (hdep : t.depth = 0)
    (h : SessInv env s) (links : List String) :
    SessInv env (logEv (setTask (spawnChildren env s
        (selectExpansion env.normFn s.visited [] links)).1 tid
        { t with phase := TaskPhase.waitingChildren (spawnChildren env s
          (selectExpansion env.normFn s.visited [] links)).2 })
      (Ev.spawnEv tid t.depth (spawnChildren env s
        (selectExpansion env.normFn s.visited [] links)).2)) := by
  obtain ⟨hinvN, hlenN, ⟨ts, htsN⟩, ⟨etailN, hesN⟩, hkids⟩ :=
    spawnChildren_spec env (selectExpansion env.normFn s.visited [] links) s h
  have htid_lt : tid < s.tasks.length := (List.getElem?_eq_some.mp ht).1
  have htidN : (spawnChildren env s
      (selectExpansion env.normFn s.visited [] links)).1.tasks[tid]? = some t := by
    rw [htsN]
    rw [getElem?_append_self _ _ _ htid_lt]
    exact ht
  obtain ⟨hded, hcl, hhp, hsc, hcap, hmax, hdb, hdi, hso, hsw, hrd, hns,
    hqok, hqnd⟩ := hinvN
  set sN := (spawnChildren env s
    (selectExpansion env.normFn s.visited [] links)).1 with hsN
  set cids := (spawnChildren env s
    (selectExpansion env.normFn s.visited [] links)).2 with hcids
  have htid_lt2 : tid < sN.tasks.length := (List.getElem?_eq_some.mp htidN).1
  have hthold : t.holding = true := by
    have := hhp tid t htidN
    rw [hph] at this
    exact this
  have hfn : fetchNorms (sN.events ++ [Ev.spawnEv tid t.depth cids]) =
      fetchNorms sN.events := by
    rw [fetchNorms_append]
    simp [fetchNorms]
  have hcase : ∀ e : Ev, e ∈ sN.events ++ [Ev.spawnEv tid t.depth cids] →
      e ∈ sN.events ∨ e = Ev.spawnEv tid t.depth cids := by
    intro e he
    rcases List.mem_append.mp he with hm | hm
    · exact Or.inl hm
    · simp at hm
      exact Or.inr hm
  obtain ⟨L1, L2, hL_old, hL_new⟩ := filterMap_set_decomp (preNorm env.normFn)
    sN.tasks tid t { t with phase := TaskPhase.waitingChildren cids } htidN
  have hL_old' : (preNorm env.normFn t).toList = [] := by
    unfold preNorm
    rw [hph]
    rfl
  have hL_new' : (preNorm env.normFn
      { t with phase := TaskPhase.waitingChildren cids }).toList = [] := rfl
  rw [hL_old', List.nil_append] at hL_old
  rw [hL_new', List.nil_append] at hL_new
  have hpend : List.filterMap (preNorm env.normFn)
      (sN.tasks.set tid { t with phase := TaskPhase.waitingChildren cids }) =
      List.filterMap (preNorm env.normFn) sN.tasks := by
    rw [hL_new, hL_old]
  obtain ⟨k1, k2, hk_old, hk_new⟩ := count_holding_set sN.tasks tid t
    { t with phase := TaskPhase.waitingChildren cids } htidN
  have hcount : ((sN.tasks.set tid
      { t with phase := TaskPhase.waitingChildren cids }).filter
        (fun x => x.holding)).length =
      (sN.tasks.filter (fun x => x.holding)).length := by
    rw [hk_old, hk_new]
  refine ⟨?_, ?_, ?_, ?_, hcap, hmax, ?_, ?_, ?_, ?_, ?_, ?_, ?_, hqnd⟩
  · show (fetchNorms (sN.events ++ [Ev.spawnEv tid t.depth cids]) ++
      List.filterMap (preNorm env.normFn) (sN.tasks.set tid
        { t with phase := TaskPhase.waitingChildren cids })).Nodup
    rw [hfn, hpend]
    exact hded
  · intro n hn
    show n ∈ sN.visited
    have hn' : n ∈ fetchNorms (sN.events ++ [Ev.spawnEv tid t.depth cids]) ++
        List.filterMap (preNorm env.normFn) (sN.tasks.set tid
          { t with phase := TaskPhase.waitingChildren cids }) := hn
    rw [hfn, hpend] at hn'
    exact hcl n hn'
  · show ∀ (i : Nat) (x : UrlTask), (sN.tasks.set tid
        { t with phase := TaskPhase.waitingChildren cids })[i]? = some x →
        x.holding = phaseNeedsSlot x.phase
    apply forall_getElem_set_ne _ _ _ (fun i x _ hx => hhp i x hx) ?_ htid_lt2
    show t.holding = true
    exact hthold
  · show sN.sem.current = (((sN.tasks.set tid
        { t with phase := TaskPhase.waitingChildren cids }).filter
          (fun x => x.holding)).length : Int)
    rw [hcount]
    exact hsc
  · intro i hi
    show i < (sN.tasks.set tid _).length
    rw [List.length_set]
    rcases hcase _ hi with hm | hm
    · exact hdb i hm
    · cases hm
  · show ∀ (i : Nat) (x : UrlTask), (sN.tasks.set tid
        { t with phase := TaskPhase.waitingChildren cids })[i]? = some x →
        (x.phase = TaskPhase.finished ↔
          Ev.doneEv i ∈ sN.events ++ [Ev.spawnEv tid t.depth cids])
    apply forall_getElem_set_ne (P := fun i x =>
      x.phase = TaskPhase.finished ↔
        Ev.doneEv i ∈ sN.events ++ [Ev.spawnEv tid t.depth cids]) _ _ _ ?_ ?_ htid_lt2
    · intro i x hne hx
      constructor
      · intro hfin
        exact List.mem_append.mpr (Or.inl ((hdi i x hx).mp hfin))
      · intro hm
        rcases hcase _ hm with hm | hm
        · exact (hdi i x hx).mpr hm
        · cases hm
    · constructor
      · intro hh
        cases hh
      · intro hm
        exfalso
        rcases hcase _ hm with hm | hm
        · have := (hdi tid t htidN).mpr hm
          rw [hph] at this
          cases this
        · cases hm
  · intro p d cs hev
    rcases hcase _ hev with hm | hm
    · obtain ⟨h1, h2, h3⟩ := hso p d cs hm
      refine ⟨h1, h2, fun c hc => ?_⟩
      refine exists_task_set _ _ _ ?_ c (h3 c hc)
      intro t' ht'
      rw [htidN] at ht'
      injection ht' with hh
      rw [hh]
    · injection hm with hh1 hh2 hh3
      subst hh1
      subst hh2
      subst hh3
      refine ⟨hdep, ?_, fun c hc => ?_⟩
      · rw [hcids, hlenN]
        exact selectExpansion_length env.normFn s.visited links [] (by
          show 0 ≤ MAX_EXPANDED_URLS
          omega)
      · refine exists_task_set _ _ _ ?_ c (hkids c hc)
        intro t' ht'
        rw [htidN] at ht'
        injection ht' with hh
        rw [hh]
  · intro p d cs hev
    rcases hcase _ hev with hm | hm
    · rcases hsw p d cs hm with ⟨tp, htp, hphp⟩ | hall
      · left
        have hpt : tid ≠ p := by
          intro hh
          subst hh
          have := htidN.symm.trans htp
          injection this with hh2
          rw [← hh2] at hphp
          rw [hph] at hphp
          cases hphp
        refine ⟨tp, ?_, hphp⟩
        show (sN.tasks.set tid
          { t with phase := TaskPhase.waitingChildren cids })[p]? = some tp
        rw [getElem?_set_ne _ _ _ _ hpt]
        exact htp
      · right
        exact fun c hc => List.mem_append.mpr (Or.inl (hall c hc))
    · injection hm with hh1 hh2 hh3
      left
      refine ⟨{ t with phase := TaskPhase.waitingChildren cids }, ?_, ?_⟩
      · show (sN.tasks.set tid
          { t with phase := TaskPhase.waitingChildren cids })[p]? = _
        rw [hh1]
        exact getElem?_set_self _ _ _ _ htidN
      · rw [hh3]
  · intro p hev
    rcases hcase _ hev with hm | hm
    · obtain ⟨tp, htp, hphp⟩ := hrd p hm
      have hpt : tid ≠ p := by
        intro hh
        subst hh
        have := htidN.symm.trans htp
        injection this with hh2
        rw [← hh2] at hphp
        rw [hph] at hphp
        cases hphp
      refine ⟨tp, ?_, hphp⟩
      show (sN.tasks.set tid
        { t with phase := TaskPhase.waitingChildren cids })[p]? = some tp
      rw [getElem?_set_ne _ _ _ _ hpt]
      exact htp
    · cases hm
  · intro i hm
    rcases hcase _ hm with hm | hm
    · exact hns i hm
    · cases hm
  · intro w hwq
    obtain ⟨tw, htw, hphw⟩ := hqok w hwq
    have hwt : tid ≠ w := by
      intro hh
      subst hh
      have := htidN.symm.trans htw
      injection this with hh2
      rw [← hh2] at hphw
      rw [hph] at hphw
      cases hphw
    refine ⟨tw, ?_, hphw⟩
    show (sN.tasks.set tid
      { t with phase := TaskPhase.waitingChildren cids })[w]? = some tw
    rw [getElem?_set_ne _ _ _ _ hwt]
    exact htw

/-- Preservation across the `afterAcquire → delaying` resumption segment
(the task keeps its Governor slot and its pending claim; no event is
logged). -/
theorem sessInv_toDelaying (env : SessionEnv) (s : Session) (tid : Nat)
    (t : UrlTask) (ht : s.tasks[tid]? = some t)
    (hph : t.phase = TaskPhase.afterAcquire) (h : SessInv env s) :
    SessInv env (setTask s tid { t with phase := TaskPhase.delaying }) := by
  obtain ⟨hded, hcl, hhp, hsc, hcap, hmax, hdb, hdi, hso, hsw, hrd, hns,
    hqok, hqnd⟩ := h
  have hthold : t.holding = true := by
    have := hhp tid t ht
    rw [hph] at this
    exact this
  obtain ⟨P1, P2, hP_old, hP_new⟩ := pendingNorms_decomp env.normFn s tid t
    { t with phase := TaskPhase.delaying } ht
  have hpre_old : (preNorm env.normFn t).toList = [env.normFn t.url] := by
    unfold preNorm
    rw [hph]
    rfl
  have hpre_new : (preNorm env.normFn
      { t with phase := TaskPhase.delaying }).toList = [env.normFn t.url] := rfl
  have hpend : pendingNorms env.normFn
      (setTask s tid { t with phase := TaskPhase.delaying }) =
      pendingNorms env.normFn s := by
    rw [hP_new, hP_old, hpre_old, hpre_new]
  obtain ⟨n1, n2, hc_old, hc_new⟩ := countHolders_decomp s tid t
    { t with phase := TaskPhase.delaying } ht
  have hcount : countHolders
      (setTask s tid { t with phase := TaskPhase.delaying }) = countHolders s := by
    rw [hc_old, hc_new]
  refine ⟨?_, ?_, ?_, ?_, hcap, hmax, ?_, ?_, ?_, ?_, ?_, hns, ?_, hqnd⟩
  · show (fetchNorms s.events ++ pendingNorms env.normFn
      (setTask s tid { t with phase := TaskPhase.delaying })).Nodup
    rw [hpend]
    exact hded
  · intro n hn
    show n ∈ s.visited
    have hn' : n ∈ fetchNorms s.events ++ pendingNorms env.normFn
        (setTask s tid { t with phase := TaskPhase.delaying }) := hn
    rw [hpend] at hn'
    exact hcl n hn'
  · show ∀ (i : Nat) (x : UrlTask),
        (s.tasks.set tid { t with phase := TaskPhase.delaying })[i]? = some x →
        x.holding = phaseNeedsSlot x.phase
    apply forall_getElem_set _ _ _ hhp
    show t.holding = true
    exact hthold
  · show s.sem.current =
      (countHolders (setTask s tid { t with phase := TaskPhase.delaying }) : Int)
    rw [hcount]
    exact hsc
  · intro i hi
    show i < (s.tasks.set tid _).length
    rw [List.length_set]
    exact hdb i hi
  · show ∀ (i : Nat) (x : UrlTask),
        (s.tasks.set tid { t with phase := TaskPhase.delaying })[i]? = some x →
        (x.phase = TaskPhase.finished ↔ Ev.doneEv i ∈ s.events)
    apply forall_getElem_set (P := fun (i : Nat) (x : UrlTask) =>
      x.phase = TaskPhase.finished ↔ Ev.doneEv i ∈ s.events) _ _ _ hdi
    constructor
    · intro hh
      cases hh
    · intro hm
      have := (hdi tid t ht).mpr hm
      rw [hph] at this
      cases this
  · intro p d cs hev
    obtain ⟨h1, h2, h3⟩ := hso p d cs hev
    refine ⟨h1, h2, fun c hc => ?_⟩
    refine exists_task_set _ _ _ ?_ c (h3 c hc)
    intro t' ht'
    rw [ht] at ht'
    injection ht' with hh
    rw [hh]
  · intro p d cs hev
    rcases hsw p d cs hev with ⟨tp, htp, hphp⟩ | hall
    · left
      have hpt : tid ≠ p := by
        intro hh
        subst hh
        have := ht.symm.trans htp
        injection this with hh2
        rw [← hh2] at hphp
        rw [hph] at hphp
        cases hphp
      refine ⟨tp, ?_, hphp⟩
      show (s.tasks.set tid { t with phase := TaskPhase.delaying })[p]? = some tp
      rw [getElem?_set_ne _ _ _ _ hpt]
      exact htp
    · exact Or.inr hall
  · intro p hev
    obtain ⟨tp, htp, hphp⟩ := hrd p hev
    have hpt : tid ≠ p := by
      intro hh
      subst hh
      have := ht.symm.trans htp
      injection this with hh2
      rw [← hh2] at hphp
      rw [hph] at hphp
      cases hphp
    refine ⟨tp, ?_, hphp⟩
    show (s.tasks.set tid { t with phase := TaskPhase.delaying })[p]? = some tp
    rw [getElem?_set_ne _ _ _ _ hpt]
    exact htp
  · intro w hwq
    obtain ⟨tw, htw, hphw⟩ := hqok w hwq
    have hwt : tid ≠ w := by
      intro hh
      subst hh
      have := ht.symm.trans htw
      injection this with hh2
      rw [← hh2] at hphw
      rw [hph] at hphw
      cases hphw
    refine ⟨tw, ?_, hphw⟩
    show (s.tasks.set tid { t with phase := TaskPhase.delaying })[w]? = some tw
    rw [getElem?_set_ne _ _ _ _ hwt]
    exact htw

/-- Preservation across the `delaying → fetching` resumption segment: the
task's claimed normalized URL moves from the pending multiset into the
trace of started fetches, so the combined no-duplicates invariant is
carried by a permutation. -/
theorem sessInv_toFetching (env : SessionEnv) (s : Session) (tid : Nat)
    (t : UrlTask) (ht : s.tasks[tid]? = some t)
    (hph : t.phase = TaskPhase.delaying) (h : SessInv env s) :
    SessInv env (logEv (setTask s tid { t with phase := TaskPhase.fetching })
      (Ev.fetchStart tid (env.normFn t.url))) := by
  obtain ⟨hded, hcl, hhp, hsc, hcap, hmax, hdb, hdi, hso, hsw, hrd, hns,
    hqok, hqnd⟩ := h
  have hthold : t.holding = true := by
    have := hhp tid t ht
    rw [hph] at this
    exact this
  obtain ⟨P1, P2, hP_old, hP_new⟩ := pendingNorms_decomp env.normFn s tid t
    { t with phase := TaskPhase.fetching } ht
  have hpre_old : (preNorm env.normFn t).toList = [env.normFn t.url] := by
    unfold preNorm
    rw [hph]
    rfl
  have hpre_new : (preNorm env.normFn
      { t with phase := TaskPhase.fetching }).toList = [] := rfl
  rw [hP_old, hpre_old] at hded hcl
  rw [hpre_new, List.nil_append] at hP_new
  have hfn : fetchNorms (s.events ++ [Ev.fetchStart tid (env.normFn t.url)]) =
      fetchNorms s.events ++ [env.normFn t.url] := by
    rw [fetchNorms_append]
    rfl
  have hcase : ∀ e : Ev, e ∈ s.events ++ [Ev.fetchStart tid (env.normFn t.url)] →
      e ∈ s.events ∨ e = Ev.fetchStart tid (env.normFn t.url) := by
    intro e he
    rcases List.mem_append.mp he with hm | hm
    · exact Or.inl hm
    · simp at hm
      exact Or.inr hm
  have hmem_pres : ∀ e : Ev, e ∈ s.events →
      e ∈ s.events ++ [Ev.fetchStart tid (env.normFn t.url)] :=
    fun e he => List.mem_append.mpr (Or.inl he)
  have hperm : List.Perm
      (fetchNorms s.events ++ (P1 ++ (env.normFn t.url :: P2)))
      (fetchNorms s.events ++ (env.normFn t.url :: (P1 ++ P2))) :=
    List.Perm.append_left _ List.perm_middle
  have hded_src : (fetchNorms s.events ++
      (P1 ++ (env.normFn t.url :: P2))).Nodup := by
    have : P1 ++ ([env.normFn t.url] ++ P2) =
        P1 ++ (env.normFn t.url :: P2) := by simp
    rw [this] at hded
    exact hded
  have hcl_src : ∀ n ∈ fetchNorms s.events ++
      (P1 ++ (env.normFn t.url :: P2)), n ∈ s.visited := by
    have : P1 ++ ([env.normFn t.url] ++ P2) =
        P1 ++ (env.normFn t.url :: P2) := by simp
    rw [this] at hcl
    exact hcl
  obtain ⟨n1, n2, hc_old, hc_new⟩ := countHolders_decomp s tid t
    { t with phase := TaskPhase.fetching } ht
  have hcount : countHolders
      (setTask s tid { t with phase := TaskPhase.fetching }) = countHolders s := by
    rw [hc_old, hc_new]
  have hshape : (fetchNorms s.events ++ [env.normFn t.url]) ++ (P1 ++ P2) =
      fetchNorms s.events ++ (env.normFn t.url :: (P1 ++ P2)) := by
    simp
  refine ⟨?_, ?_, ?_, ?_, hcap, hmax, ?_, ?_, ?_, ?_, ?_, ?_, ?_, hqnd⟩
  · show (fetchNorms (s.events ++ [Ev.fetchStart tid (env.normFn t.url)]) ++
      pendingNorms env.normFn
        (setTask s tid { t with phase := TaskPhase.fetching })).Nodup
    rw [hfn, hP_new, hshape]
    exact hperm.nodup hded_src
  · intro n hn
    show n ∈ s.visited
    have hn' : n ∈ fetchNorms (s.events ++
        [Ev.fetchStart tid (env.normFn t.url)]) ++
        pendingNorms env.normFn
          (setTask s tid { t with phase := TaskPhase.fetching }) := hn
    rw [hfn, hP_new, hshape] at hn'
    exact hcl_src n (hperm.symm.subset hn')
  · show ∀ (i : Nat) (x : UrlTask),
        (s.tasks.set tid { t with phase := TaskPhase.fetching })[i]? = some x →
        x.holding = phaseNeedsSlot x.phase
    apply forall_getElem_set _ _ _ hhp
    show t.holding = true
    exact hthold
  · show s.sem.current =
      (countHolders (setTask s tid { t with phase := TaskPhase.fetching }) : Int)
    rw [hcount]
    exact hsc
  · intro i hi
    show i < (s.tasks.set tid _).length
    rw [List.length_set]
    rcases hcase _ hi with hm | hm
    · exact hdb i hm
    · cases hm
  · show ∀ (i : Nat) (x : UrlTask),
        (s.tasks.set tid { t with phase := TaskPhase.fetching })[i]? = some x →
        (x.phase = TaskPhase.finished ↔
          Ev.doneEv i ∈ s.events ++ [Ev.fetchStart tid (env.normFn t.url)])
    apply forall_getElem_set (P := fun (i : Nat) (x : UrlTask) =>
      x.phase = TaskPhase.finished ↔
        Ev.doneEv i ∈ s.events ++ [Ev.fetchStart tid (env.normFn t.url)]) _ _ _ ?_
    · constructor
      · intro hh
        cases hh
      · intro hm
        rcases hcase _ hm with hm | hm
        · have := (hdi tid t ht).mpr hm
          rw [hph] at this
          cases this
        · cases hm
    · intro i x hx
      constructor
      · intro hfin
        exact hmem_pres _ ((hdi i x hx).mp hfin)
      · intro hm
        rcases hcase _ hm with hm | hm
        · exact (hdi i x hx).mpr hm
        · cases hm
  · intro p d cs hev
    rcases hcase _ hev with hm | hm
    · obtain ⟨h1, h2, h3⟩ := hso p d cs hm
      refine ⟨h1, h2, fun c hc => ?_⟩
      refine exists_task_set _ _ _ ?_ c (h3 c hc)
      intro t' ht'
      rw [ht] at ht'
      injection ht' with hh
      rw [hh]
    · cases hm
  · intro p d cs hev
    rcases hcase _ hev with hm | hm
    · rcases hsw p d cs hm with ⟨tp, htp, hphp⟩ | hall
      · left
        have hpt : tid ≠ p := by
          intro hh
          subst hh
          have := ht.symm.trans htp
          injection this with hh2
          rw [← hh2] at hphp
          rw [hph] at hphp
          cases hphp
        refine ⟨tp, ?_, hphp⟩
        show (s.tasks.set tid { t with phase := TaskPhase.fetching })[p]? = some tp
        rw [getElem?_set_ne _ _ _ _ hpt]
        exact htp
      · exact Or.inr fun c hc => hmem_pres _ (hall c hc)
    · cases hm
  · intro p hev
    rcases hcase _ hev with hm | hm
    · obtain ⟨tp, htp, hphp⟩ := hrd p hm
      have hpt : tid ≠ p := by
        intro hh
        subst hh
        have := ht.symm.trans htp
        injection this with hh2
        rw [← hh2] at hphp
        rw [hph] at hphp
        cases hphp
      refine ⟨tp, ?_, hphp⟩
      show (s.tasks.set tid { t with phase := TaskPhase.fetching })[p]? = some tp
      rw [getElem?_set_ne _ _ _ _ hpt]
      exact htp
    · cases hm
  · intro i hm
    rcases hcase _ hm with hm | hm
    · exact hns i hm
    · cases hm
  · intro w hwq
    obtain ⟨tw, htw, hphw⟩ := hqok w hwq
    have hwt : tid ≠ w := by
      intro hh
      subst hh
      have := ht.symm.trans htw
      injection this with hh2
      rw [← hh2] at hphw
      rw [hph] at hphw
      cases hphw
    refine ⟨tw, ?_, hphw⟩
    show (s.tasks.set tid { t with phase := TaskPhase.fetching })[w]? = some tw
    rw [getElem?_set_ne _ _ _ _ hwt]
    exact htw

/-- The session invariant is preserved by resuming any task at any
suspension point (every atomic segment of `processUrl`). -/
theorem sessInv_resumeTask (env : SessionEnv) (s : Session) (tid : Nat)
    (h : SessInv env s) : SessInv env (resumeTask env s tid) := by
  unfold resumeTask
  cases ht : s.tasks[tid]? with
  | none => exact h
  | some t =>
      dsimp only
      cases hph : t.phase with
      | semWait => exact h
      | finished => exact h
      | afterAcquire =>
          dsimp only
          rcases hsa : shouldAbortStep env s with ⟨ab, s1⟩
          obtain ⟨hts, hes, hvs, hss, _⟩ := shouldAbortStep_fields env s
          rw [hsa] at hts hes hvs hss
          have h1 : SessInv env s1 := by
            have := sessInv_shouldAbort env s h
            rw [hsa] at this
            exact this
          have ht1 : s1.tasks[tid]? = some t := by rw [hts]; exact ht
          dsimp only
          cases ab with
          | true =>
              simp only [if_true]
              refine sessInv_finishTask env s1 tid t ht1 ?_ ?_ h1
              · rw [hph]
                rfl
              · intro cs hcs
                rw [hph] at hcs
                cases hcs
          | false =>
              simp only [Bool.false_eq_true, if_false]
              exact sessInv_toDelaying env s1 tid t ht1 hph h1
      | delaying =>
          dsimp only
          rcases hsa : shouldAbortStep env s with ⟨ab, s1⟩
          obtain ⟨hts, hes, hvs, hss, _⟩ := shouldAbortStep_fields env s
          rw [hsa] at hts hes hvs hss
          have h1 : SessInv env s1 := by
            have := sessInv_shouldAbort env s h
            rw [hsa] at this
            exact this
          have ht1 : s1.tasks[tid]? = some t := by rw [hts]; exact ht
          dsimp only
          cases ab with
          | true =>
              simp only [if_true]
              refine sessInv_finishTask env s1 tid t ht1 ?_ ?_ h1
              · rw [hph]
                rfl
              · intro cs hcs
                rw [hph] at hcs
                cases hcs
          | false =>
              simp only [Bool.false_eq_true, if_false]
              exact sessInv_toFetching env s1 tid t ht1 hph h1
      | fetching =>
          dsimp only
          cases hfe : env.fetchFn t.url with
          | none =>
              dsimp only
              refine sessInv_finishTask env s tid t ht ?_ ?_ h
              · rw [hph]
                rfl
              · intro cs hcs
                rw [hph] at hcs
                cases hcs
          | some page =>
              dsimp only
              rcases hsa : shouldAbortStep env s with ⟨ab, s1⟩
              obtain ⟨hts, hes, hvs, hss, _⟩ := shouldAbortStep_fields env s
              rw [hsa] at hts hes hvs hss
              have h1 : SessInv env s1 := by
                have := sessInv_shouldAbort env s h
                rw [hsa] at this
                exact this
              have ht1 : s1.tasks[tid]? = some t := by rw [hts]; exact ht
              dsimp only
              cases ab with
              | true =>
                  simp only [if_true]
                  refine sessInv_finishTask env s1 tid t ht1 ?_ ?_ h1
                  · rw [hph]
                    rfl
                  · intro cs hcs
                    rw [hph] at hcs
                    cases hcs
              | false =>
                  simp only [Bool.false_eq_true, if_false]
                  have h3 : SessInv env
                      (logEv { s1 with pageCount := s1.pageCount + 1 }
                        (Ev.callbackEv (s1.pageCount + 1))) :=
                    sessInv_callback env s1 h1 (s1.pageCount + 1)
                  have ht3 : (logEv { s1 with pageCount := s1.pageCount + 1 }
                      (Ev.callbackEv (s1.pageCount + 1))).tasks[tid]? = some t := ht1
                  by_cases hcond : t.depth = 0 ∧ page.links ≠ []
                  · rw [if_pos hcond]
                    exact sessInv_expand env
                      (logEv { s1 with pageCount := s1.pageCount + 1 }
                        (Ev.callbackEv (s1.pageCount + 1)))
                      tid t ht3 hph hcond.1 h3 page.links
                  · rw [if_neg hcond]
                    refine sessInv_finishTask env
                      (logEv { s1 with pageCount := s1.pageCount + 1 }
                        (Ev.callbackEv (s1.pageCount + 1)))
                      tid t ht3 ?_ ?_ h3
                    · rw [hph]
                      rfl
                    · intro cs hcs
                      rw [hph] at hcs
                      cases hcs
      | waitingChildren cids =>
          dsimp only
          cases hallc : cids.all (fun c =>
              match s.tasks[c]? with
              | some tc => tc.phase == TaskPhase.finished
              | none => false) with
          | false =>
              simp only [Bool.false_eq_true, if_false]
              exact h
          | true =>
              simp only [if_true]
              refine sessInv_finishTask env s tid t ht ?_ ?_ h
              · rw [hph]
                rfl
              · intro cs hcs
                rw [hph] at hcs
                injection hcs with hcs'
                subst hcs'
                intro c hc
                have hac := List.all_eq_true.mp hallc c hc
                cases htc : s.tasks[c]? with
                | none =>
                    rw [htc] at hac
                    simp at hac
                | some tc =>
                    rw [htc] at hac
                    simp at hac
                    exact ⟨tc, rfl, hac⟩

theorem sessInv_foldl_start (env : SessionEnv) :
    ∀ (seeds : List String) (s : Session), SessInv env s →
      SessInv env (seeds.foldl (fun s url => startTask env s url 0) s) := by
  intro seeds
  induction seeds with
  | nil =>
      intro s hs
      exact hs
  | cons u us ih =>
      intro s hs
      exact ih _ (sessInv_startTask env s hs u 0)

theorem sessInv_sessionStart (env : SessionEnv) (seeds : List String) :
    SessInv env (sessionStart env seeds) :=
  sessInv_foldl_start env seeds initSession (sessInv_init env)

theorem sessInv_foldl_run (env : SessionEnv) :
    ∀ (sched : List Nat) (s : Session), SessInv env s →
      SessInv env (sched.foldl (resumeTask env) s) := by
  intro sched
  induction sched with
  | nil =>
      intro s hs
      exact hs
  | cons i is ih =>
      intro s hs
      exact ih _ (sessInv_resumeTask env s i hs)

/-- Every reachable session state — any seed list, any interleaving of the
tasks' atomic segments — satisfies the invariant bundle. -/
theorem sessInv_sessionRun (env : SessionEnv) (seeds : List String)
    (sched : List Nat) : SessInv env (sessionRun env seeds sched) :=
  sessInv_foldl_run env sched (sessionStart env seeds)
    (sessInv_sessionStart env seeds)

/-- C5: within one inspection session, no normalized URL is fetched twice —
over every environment, seed list and interleaving, the normalized forms of
all started fetches are pairwise distinct, and each of them was first
entered into the session's claimed (`visited`) set. -/
theorem session_no_duplicate_fetches (env : SessionEnv) (seeds : List String)
    (sched : List Nat) :
    (fetchNorms (sessionRun env seeds sched).events).Nodup ∧
    ∀ n ∈ fetchNorms (sessionRun env seeds sched).events,
      n ∈ (sessionRun env seeds sched).visited := by
  have h := sessInv_sessionRun env seeds sched
  constructor
  · exact h.dedup.of_append_left
  · intro n hn
    exact h.claimed n (List.mem_append.mpr (Or.inl hn))

/-- C7: only a depth-0 task fans out expansion: every spawn event in every
reachable session state originates from a depth-0 parent, carries at most
`MAX_EXPANDED_URLS` (25) children, and each spawned child task runs at
depth 1 (so depth-1 pages spawn no further tasks). -/
theorem depth0_fanout_cap (env : SessionEnv) (seeds : List String)
    (sched : List Nat) (p d : Nat) (cs : List Nat)
    (hev : Ev.spawnEv p d cs ∈ (sessionRun env seeds sched).events) :
    d = 0 ∧ cs.length ≤ MAX_EXPANDED_URLS ∧
    ∀ c ∈ cs, ∃ tc : UrlTask,
      (sessionRun env seeds sched).tasks[c]? = some tc ∧ tc.depth = 1 :=
  (sessInv_sessionRun env seeds sched).spawnOk p d cs hev

theorem depth0_fanout_cap_witness :
    Ev.spawnEv 0 0 [1] ∈ (sessionRun demoEnv ["a"] [0, 0, 0]).events ∧
    (0 = 0 ∧ ([1] : List Nat).length ≤ MAX_EXPANDED_URLS ∧
      ∀ c ∈ ([1] : List Nat), ∃ tc : UrlTask,
        (sessionRun demoEnv ["a"] [0, 0, 0]).tasks[c]? = some tc ∧
          tc.depth = 1) :=
  ⟨by decide, depth0_fanout_cap demoEnv ["a"] [0, 0, 0] 0 0 [1] (by decide)⟩

/-- C10: a parent task holds its Governor slot for the entire duration of
its children's execution — in every reachable state, once a spawn event for
parent `p` with children `cs` has occurred, either `p` is still parked in
its children-wait phase holding its slot and no release of `p`'s slot has
happened, or every spawned child has already terminated. -/
theorem parent_slot_held_during_children (env : SessionEnv)
    (seeds : List String) (sched : List Nat) (p d : Nat) (cs : List Nat)
    (hspawn : Ev.spawnEv p d cs ∈ (sessionRun env seeds sched).events) :
    ((∃ tp : UrlTask, (sessionRun env seeds sched).tasks[p]? = some tp ∧
        tp.phase = TaskPhase.waitingChildren cs ∧ tp.holding = true) ∧
      Ev.releaseEv p ∉ (sessionRun env seeds sched).events) ∨
    ∀ c ∈ cs, Ev.doneEv c ∈ (sessionRun env seeds sched).events := by
  have h := sessInv_sessionRun env seeds sched
  rcases h.spawnWait p d cs hspawn with ⟨tp, htp, hphp⟩ | hall
  · left
    have hhold : tp.holding = true := by
      have := h.holdPhase p tp htp
      rw [hphp] at this
      exact this
    refine ⟨⟨tp, htp, hphp, hhold⟩, ?_⟩
    intro hrel
    obtain ⟨tp', htp', hfin⟩ := h.releasedDone p hrel
    rw [htp] at htp'
    injection htp' with hh
    rw [← hh] at hfin
    rw [hphp] at hfin
    cases hfin
  · exact Or.inr hall

theorem parent_slot_held_during_children_witness :
    Ev.spawnEv 0 0 [1] ∈ (sessionRun demoEnv ["a"] [0, 0, 0]).events ∧
    (((∃ tp : UrlTask,
        (sessionRun demoEnv ["a"] [0, 0, 0]).tasks[0]? = some tp ∧
        tp.phase = TaskPhase.waitingChildren [1] ∧ tp.holding = true) ∧
      Ev.releaseEv 0 ∉ (sessionRun demoEnv ["a"] [0, 0, 0]).events) ∨
    ∀ c ∈ ([1] : List Nat),
      Ev.doneEv c ∈ (sessionRun demoEnv ["a"] [0, 0, 0]).events) :=
  ⟨by decide,
   parent_slot_held_during_children demoEnv ["a"] [0, 0, 0] 0 0 [1] (by decide)⟩

/-- C1: the claim fails — `processUrl` never persists anything through the
Durable Run Store: in every reachable session state the event trace holds
no Store write at all, even though a successful inspection does increment
the page counter and fire the progress callback (shown on a concrete run
whose seed fetch succeeds). -/
theorem success_callback_without_store_write :
    (∀ (env : SessionEnv) (seeds : List String) (sched : List Nat),
      (sessionRun env seeds sched).events.all (fun e => !isStoreWrite e) =
        true) ∧
    (sessionRun demoEnv ["a"] [0, 0, 0]).pageCount = 1 ∧
    Ev.callbackEv 1 ∈ (sessionRun demoEnv ["a"] [0, 0, 0]).events := by
  refine ⟨?_, by decide, by decide⟩
  intro env seeds sched
  have h := sessInv_sessionRun env seeds sched
  rw [List.all_eq_true]
  intro e he
  cases e with
  | storeWriteEv i => exact absurd he (h.noStore i)
  | claim tid n => rfl
  | fetchStart tid n => rfl
  | callbackEv n => rfl
  | spawnEv p d cs => rfl
  | releaseEv tid => rfl
  | doneEv tid => rfl

theorem spanUntil_spec (p : Char → Bool) :
    ∀ l : List Char, (spanUntil p l).1 ++ (spanUntil p l).2 = l ∧
      (∀ c ∈ (spanUntil p l).1, p c = false) ∧
      (match (spanUntil p l).2 with | [] => True | c :: _ => p c = true) := by
  intro l
  induction l with
  | nil =>
      refine ⟨rfl, ?_, trivial⟩
      intro x hx
      cases hx
  | cons c cs ih =>
      unfold spanUntil
      by_cases hc : p c = true
      · rw [if_pos hc]
        refine ⟨rfl, ?_, hc⟩
        intro x hx
        dsimp only at hx
        cases hx
      · rw [if_neg hc]
        obtain ⟨h1, h2, h3⟩ := ih
        refine ⟨?_, ?_, h3⟩
        · dsimp only
          rw [List.cons_append, h1]
        · intro x hx
          dsimp only at hx
          rcases List.mem_cons.mp hx with hx | hx
          · subst hx
            simpa using hc
          · exact h2 x hx

theorem spanUntil_append (p : Char → Bool) :
    ∀ (a b : List Char), (∀ c ∈ a, p c = false) →
      (match b with | [] => True | c :: _ => p c = true) →
      spanUntil p (a ++ b) = (a, b) := by
  intro a
  induction a with
  | nil =>
      intro b _ hb
      cases b with
      | nil => rfl
      | cons c cs =>
          have hb' : p c = true := hb
          rw [List.nil_append]
          unfold spanUntil
          rw [if_pos hb']
  | cons c a' ih =>
      intro b ha hb
      rw [List.cons_append]
      unfold spanUntil
      have hc : p c = false := ha c (List.mem_cons_self c a')
      rw [if_neg (by simp [hc])]
      rw [ih b (fun x hx => ha x (List.mem_cons_of_mem c hx)) hb]

theorem spanUntil_all (p : Char → Bool) (l : List Char)
    (h : ∀ c ∈ l, p c = false) : spanUntil p l = (l, []) := by
  have := spanUntil_append p l [] h trivial
  rw [List.append_nil] at this
  exact this

theorem hexVal_hexDigit (n : Nat) (h : n < 16) :
    hexVal (hexDigit n) = some n := by
  interval_cases n <;> decide

theorem toHex6_length (n : Nat) : (toHex6 n).length = 6 := rfl

theorem hexVal6_toHex6 (n : Nat) (h : n < 16777216) :
    hexVal6 (toHex6 n) = some n := by
  unfold toHex6 hexVal6
  dsimp only
  rw [hexVal_hexDigit _ (Nat.mod_lt _ (by norm_num)),
      hexVal_hexDigit _ (Nat.mod_lt _ (by norm_num)),
      hexVal_hexDigit _ (Nat.mod_lt _ (by norm_num)),
      hexVal_hexDigit _ (Nat.mod_lt _ (by norm_num)),
      hexVal_hexDigit _ (Nat.mod_lt _ (by norm_num)),
      hexVal_hexDigit _ (Nat.mod_lt _ (by norm_num))]
  dsimp only
  congr 1
  omega

theorem safe_spec (c : Char) (h : isSafeChar c = true) :
    ¬c = '+' ∧ ¬c = '%' := by
  constructor <;> intro he <;> subst he <;> exact absurd h (by decide)

theorem char_toNat_lt (c : Char) : c.toNat < 16777216 := by
  have h : Nat.isValidChar c.toNat := c.valid
  rcases h with h | ⟨h1, h2⟩ <;> omega

theorem encodeStr_cons (c : Char) (cs : List Char) :
    encodeStr (c :: cs) = encodeChar c ++ encodeStr cs := rfl

theorem decodeAux_eq : ∀ (f g : Nat) (cs : List Char), cs.length ≤ f →
    cs.length ≤ g → decodeAux f cs = decodeAux g cs := by
  intro f
  induction f with
  | zero =>
      intro g cs h1 _
      have hcs : cs = [] := List.length_eq_zero.mp (Nat.le_zero.mp h1)
      subst hcs
      cases g with
      | zero => rfl
      | succ g' => rfl
  | succ f ih =>
      intro g cs h1 h2
      cases cs with
      | nil =>
          cases g with
          | zero => rfl
          | succ g' => rfl
      | cons c cs' =>
          cases g with
          | zero =>
              rw [List.length_cons] at h2
              exact absurd h2 (by omega)
          | succ g' =>
              rw [List.length_cons] at h1 h2
              unfold decodeAux
              by_cases hc : c = '+'
              · rw [if_pos hc, if_pos hc,
                  ih g' cs' (by omega) (by omega)]
              · rw [if_neg hc, if_neg hc]
                by_cases hp : c = '%'
                · rw [if_pos hp, if_pos hp]
                  cases hx : hexVal6 (cs'.take 6) with
                  | some n =>
                      dsimp only
                      rw [ih g' (cs'.drop 6)
                        (by rw [List.length_drop]; omega)
                        (by rw [List.length_drop]; omega)]
                  | none =>
                      dsimp only
                      rw [ih g' cs' (by omega) (by omega)]
                · rw [if_neg hp, if_neg hp,
                    ih g' cs' (by omega) (by omega)]

theorem decodeStr_nil : decodeStr [] = [] := rfl

theorem decodeStr_cons_plain (c : Char) (cs : List Char) (h1 : ¬c = '+')
    (h2 : ¬c = '%') : decodeStr (c :: cs) = c :: decodeStr cs := by
  unfold decodeStr
  rw [List.length_cons]
  unfold decodeAux
  rw [if_neg h1, if_neg h2]
  rw [← decodeAux.eq_def]

theorem decodeStr_cons_plus (cs : List Char) :
    decodeStr ('+' :: cs) = ' ' :: decodeStr cs := by
  unfold decodeStr
  rw [List.length_cons]
  unfold decodeAux
  rw [if_pos rfl]
  rw [← decodeAux.eq_def]

theorem decodeStr_cons_escape (n : Nat) (cs : List Char)
    (h : n < 16777216) :
    decodeStr ('%' :: (toHex6 n ++ cs)) = Char.ofNat n :: decodeStr cs := by
  unfold decodeStr
  rw [List.length_cons]
  unfold decodeAux
  rw [if_neg (by decide), if_pos rfl]
  rw [List.take_left' (toHex6_length n)]
  rw [hexVal6_toHex6 _ h]
  dsimp only
  rw [List.drop_left' (toHex6_length n)]
  rw [decodeAux_eq _ cs.length cs
    (by rw [List.length_append, toHex6_length]; omega) (Nat.le_refl _)]
  rw [← decodeAux.eq_def]

theorem decodeStr_encodeStr : ∀ cs : List Char,
    decodeStr (encodeStr cs) = cs := by
  intro cs
  induction cs with
  | nil => exact decodeStr_nil
  | cons c cs ih =>
      rw [encodeStr_cons]
      unfold encodeChar
      by_cases hs : isSafeChar c = true
      · rw [if_pos hs, List.singleton_append]
        rw [decodeStr_cons_plain c _ (safe_spec c hs).1 (safe_spec c hs).2, ih]
      · rw [if_neg hs]
        by_cases hsp : (c == ' ') = true
        · rw [if_pos hsp, List.singleton_append]
          have hc : c = ' ' := by simpa using hsp
          subst hc
          rw [decodeStr_cons_plus, ih]
        · rw [if_neg hsp, List.cons_append]
          rw [decodeStr_cons_escape _ _ (char_toNat_lt c)]
          rw [Char.ofNat_toNat, ih]

theorem safe_plain (c : Char) (h : isSafeChar c = true) :
    ¬c = '&' ∧ ¬c = '=' ∧ ¬c = '#' ∧ ¬c = '/' := by
  refine ⟨fun hh => ?_, fun hh => ?_, fun hh => ?_, fun hh => ?_⟩ <;>
    subst hh <;> exact absurd h (by decide)

theorem hexDigit_plain (n : Nat) (h : n < 16) :
    ¬hexDigit n = '&' ∧ ¬hexDigit n = '=' ∧ ¬hexDigit n = '#' ∧
      ¬hexDigit n = '/' := by
  interval_cases n <;> exact (by decide)

theorem encodeChar_plain (c : Char) : ∀ x ∈ encodeChar c,
    ¬x = '&' ∧ ¬x = '=' ∧ ¬x = '#' ∧ ¬x = '/' := by
  intro x hx
  unfold encodeChar at hx
  by_cases hs : isSafeChar c = true
  · rw [if_pos hs] at hx
    rw [List.mem_singleton] at hx
    subst hx
    exact safe_plain x hs
  · rw [if_neg hs] at hx
    by_cases hsp : (c == ' ') = true
    · rw [if_pos hsp] at hx
      rw [List.mem_singleton] at hx
      subst hx
      exact (by decide)
    · rw [if_neg hsp] at hx
      rcases List.mem_cons.mp hx with hx | hx
      · subst hx
        exact (by decide)
      · unfold toHex6 at hx
        simp only [List.mem_cons, List.not_mem_nil, or_false] at hx
        rcases hx with h | h | h | h | h | h <;> subst h <;>
          exact hexDigit_plain _ (Nat.mod_lt _ (by norm_num))

theorem encodeStr_plain (l : List Char) : ∀ x ∈ encodeStr l,
    ¬x = '&' ∧ ¬x = '=' ∧ ¬x = '#' ∧ ¬x = '/' := by
  intro x hx
  unfold encodeStr at hx
  rw [List.mem_flatten] at hx
  obtain ⟨a, ha, hxa⟩ := hx
  rw [List.mem_map] at ha
  obtain ⟨c, _, hc⟩ := ha
  subst hc
  exact encodeChar_plain c x hxa

theorem splitAmp_no_amp : ∀ l : List Char, (∀ c ∈ l, ¬c = '&') →
    splitAmp l = [l] := by
  intro l
  induction l with
  | nil => intro _; rfl
  | cons c cs ih =>
      intro h
      unfold splitAmp
      rw [if_neg (h c (List.mem_cons_self c cs))]
      rw [ih (fun x hx => h x (List.mem_cons_of_mem c hx))]

theorem splitAmp_amp : ∀ (a b : List Char), (∀ c ∈ a, ¬c = '&') →
    splitAmp (a ++ '&' :: b) = a :: splitAmp b := by
  intro a
  induction a with
  | nil =>
      intro b _
      rw [List.nil_append]
      unfold splitAmp
      rw [if_pos rfl]
      rw [← splitAmp.eq_def]
  | cons c a' ih =>
      intro b ha
      rw [List.cons_append]
      unfold splitAmp
      rw [if_neg (ha c (List.mem_cons_self c a'))]
      rw [ih b (fun x hx => ha x (List.mem_cons_of_mem c hx))]
      rw [← splitAmp.eq_def]

theorem splitAmp_joinAmp : ∀ segs : List (List Char), segs ≠ [] →
    (∀ s ∈ segs, ∀ c ∈ s, ¬c = '&') → splitAmp (joinAmp segs) = segs := by
  intro segs
  induction segs with
  | nil => intro h; exact absurd rfl h
  | cons s ss ih =>
      intro _ h
      cases ss with
      | nil =>
          show splitAmp (joinAmp [s]) = [s]
          rw [show joinAmp [s] = s from rfl]
          exact splitAmp_no_amp s (h s (List.mem_cons_self s []))
      | cons s2 ss2 =>
          show splitAmp (joinAmp (s :: s2 :: ss2)) = s :: s2 :: ss2
          rw [show joinAmp (s :: s2 :: ss2) =
            s ++ '&' :: joinAmp (s2 :: ss2) from rfl]
          rw [splitAmp_amp s _ (h s (List.mem_cons_self s _))]
          rw [ih (List.cons_ne_nil s2 ss2)
            (fun x hx => h x (List.mem_cons_of_mem s hx))]

theorem segOf_no_amp (kv : List Char × List Char) :
    ∀ c ∈ segOf kv, ¬c = '&' := by
  intro c hc
  unfold segOf at hc
  rcases List.mem_append.mp hc with hm | hm
  · exact (encodeStr_plain _ c hm).1
  · rcases List.mem_cons.mp hm with hm | hm
    · subst hm
      decide
    · exact (encodeStr_plain _ c hm).1

theorem parsePair_segOf (kv : List Char × List Char) :
    parsePair (segOf kv) = kv := by
  unfold parsePair segOf
  rw [spanUntil_append _ (encodeStr kv.1) ('=' :: encodeStr kv.2)
    (fun c hc => by
      have := (encodeStr_plain _ c hc).2.1
      simpa using this)
    rfl]
  dsimp only
  rw [decodeStr_encodeStr]
  show (kv.1, decodeStr (encodeStr kv.2)) = kv
  rw [decodeStr_encodeStr]

theorem segOf_ne_nil (kv : List Char × List Char) :
    (segOf kv).isEmpty = false := by
  unfold segOf
  cases h : encodeStr kv.1 with
  | nil => rfl
  | cons a l => rfl

theorem filterMap_segOf : ∀ l : List (List Char × List Char),
    (l.map segOf).filterMap (fun seg =>
      if seg.isEmpty then none else some (parsePair seg)) = l := by
  intro l
  induction l with
  | nil => rfl
  | cons kv l' ih =>
      rw [List.map_cons, List.filterMap_cons]
      rw [segOf_ne_nil kv]
      rw [if_neg Bool.false_ne_true]
      dsimp only
      rw [parsePair_segOf, ih]

theorem parseParams_serializeParams (ps : List (List Char × List Char)) :
    parseParams (serializeParams ps) = ps := by
  cases ps with
  | nil => rfl
  | cons kv ps' =>
      unfold parseParams serializeParams
      rw [show (kv :: ps').map (fun kv =>
        encodeStr kv.1 ++ '=' :: encodeStr kv.2) =
        (kv :: ps').map segOf from rfl]
      rw [splitAmp_joinAmp _ (by simp) (by
        intro s hs
        rw [List.mem_map] at hs
        obtain ⟨kv', _, hkv⟩ := hs
        subst hkv
        exact segOf_no_amp kv')]
      exact filterMap_segOf (kv :: ps')

theorem char_toNat_inj (a b : Char) (h : a.toNat = b.toNat) : a = b := by
  have ha := Char.ofNat_toNat a
  have hb := Char.ofNat_toNat b
  rw [← ha, ← hb, h]

theorem lexLe_total : ∀ x y : List Char,
    lexLe x y = true ∨ lexLe y x = true := by
  intro x
  induction x with
  | nil =>
      intro y
      exact Or.inl rfl
  | cons a as ih =>
      intro y
      cases y with
      | nil => exact Or.inr rfl
      | cons b bs =>
          by_cases hab : a = b
          · subst hab
            rcases ih bs with h | h
            · left
              unfold lexLe
              rw [if_pos rfl]
              exact h
            · right
              unfold lexLe
              rw [if_pos rfl]
              exact h
          · have hba : ¬b = a := fun hh => hab hh.symm
            have hne : a.toNat ≠ b.toNat :=
              fun hh => hab (char_toNat_inj a b hh)
            rcases Nat.lt_or_ge a.toNat b.toNat with hlt | hge
            · left
              unfold lexLe
              rw [if_neg hab]
              simpa using hlt
            · right
              unfold lexLe
              rw [if_neg hba]
              have hblt : b.toNat < a.toNat :=
                Nat.lt_of_le_of_ne hge (fun hh => hne hh.symm)
              simpa using hblt

theorem lexLe_trans : ∀ x y z : List Char, lexLe x y = true →
    lexLe y z = true → lexLe x z = true := by
  intro x
  induction x with
  | nil =>
      intro y z _ _
      rfl
  | cons a as ih =>
      intro y z hxy hyz
      cases y with
      | nil => cases hxy
      | cons b bs =>
          cases z with
          | nil => cases hyz
          | cons c cs =>
              unfold lexLe at hxy hyz ⊢
              by_cases hab : a = b
              · subst hab
                rw [if_pos rfl] at hxy
                by_cases hbc : a = c
                · subst hbc
                  rw [if_pos rfl] at hyz
                  rw [if_pos rfl]
                  exact ih bs cs hxy hyz
                · rw [if_neg hbc] at hyz
                  rw [if_neg hbc]
                  exact hyz
              · rw [if_neg hab] at hxy
                have hab' : a.toNat < b.toNat := by simpa using hxy
                by_cases hbc : b = c
                · subst hbc
                  rw [if_neg hab]
                  simpa using hab'
                · rw [if_neg hbc] at hyz
                  have hbc' : b.toNat < c.toNat := by simpa using hyz
                  have hac' : a.toNat < c.toNat := Nat.lt_trans hab' hbc'
                  have hac : ¬a = c := by
                    intro hh
                    rw [hh] at hac'
                    exact absurd hac' (Nat.lt_irrefl _)
                  rw [if_neg hac]
                  simpa using hac'

@[instance] theorem pairOrderTotal : IsTotal (List Char × List Char)
    (fun a b => lexLe (pairKey a) (pairKey b) = true) :=
  ⟨fun a b => lexLe_total (pairKey a) (pairKey b)⟩

@[instance] theorem pairOrderTrans : IsTrans (List Char × List Char)
    (fun a b => lexLe (pairKey a) (pairKey b) = true) :=
  ⟨fun _ _ _ hab hbc => lexLe_trans _ _ _ hab hbc⟩

theorem runParamPipeline_idem (q : List Char) :
    runParamPipeline (runParamPipeline q) = runParamPipeline q := by
  unfold runParamPipeline
  rw [parseParams_serializeParams]
  have hmem : ∀ kv ∈ sortParams (filterParams (parseParams q)),
      keepParam kv.1 = true := by
    intro kv hkv
    have hkv' : kv ∈ filterParams (parseParams q) :=
      (List.perm_insertionSort _ _).subset hkv
    unfold filterParams at hkv'
    exact List.of_mem_filter
      (p := fun kv : List Char × List Char => keepParam kv.1) hkv'
  have hfil : filterParams (sortParams (filterParams (parseParams q))) =
      sortParams (filterParams (parseParams q)) := by
    unfold filterParams
    exact List.filter_eq_self.mpr hmem
  rw [hfil]
  have hsorted : List.Sorted
      (fun a b => lexLe (pairKey a) (pairKey b) = true)
      (sortParams (filterParams (parseParams q))) :=
    List.sorted_insertionSort _ _
  have hss : sortParams (sortParams (filterParams (parseParams q))) =
      sortParams (filterParams (parseParams q)) := by
    unfold sortParams
    exact List.Sorted.insertionSort_eq hsorted
  rw [hss]

theorem joinAmp_mem : ∀ (segs : List (List Char)) (x : Char),
    x ∈ joinAmp segs → (∃ s ∈ segs, x ∈ s) ∨ x = '&' := by
  intro segs
  induction segs with
  | nil =>
      intro x hx
      cases hx
  | cons s ss ih =>
      intro x hx
      cases ss with
      | nil =>
          exact Or.inl ⟨s, List.mem_cons_self s [], hx⟩
      | cons s2 ss2 =>
          rw [show joinAmp (s :: s2 :: ss2) =
            s ++ '&' :: joinAmp (s2 :: ss2) from rfl] at hx
          rcases List.mem_append.mp hx with hm | hm
          · exact Or.inl ⟨s, List.mem_cons_self s _, hm⟩
          · rcases List.mem_cons.mp hm with hm | hm
            · exact Or.inr hm
            · rcases ih x hm with ⟨s', hs', hxs⟩ | hm2
              · exact Or.inl ⟨s', List.mem_cons_of_mem s hs', hxs⟩
              · exact Or.inr hm2

theorem segOf_plain (kv : List Char × List Char) :
    ∀ c ∈ segOf kv, ¬c = '#' ∧ ¬c = '/' := by
  intro c hc
  unfold segOf at hc
  rcases List.mem_append.mp hc with hm | hm
  · exact ⟨(encodeStr_plain _ c hm).2.2.1, (encodeStr_plain _ c hm).2.2.2⟩
  · rcases List.mem_cons.mp hm with hm | hm
    · subst hm
      exact (by decide)
    · exact ⟨(encodeStr_plain _ c hm).2.2.1, (encodeStr_plain _ c hm).2.2.2⟩

theorem serializeParams_plain (ps : List (List Char × List Char)) :
    ∀ c ∈ serializeParams ps, ¬c = '#' ∧ ¬c = '/' := by
  intro c hc
  unfold serializeParams at hc
  rcases joinAmp_mem _ c hc with ⟨s, hs, hcs⟩ | hc'
  · rw [List.mem_map] at hs
    obtain ⟨kv, _, hkv⟩ := hs
    subst hkv
    exact segOf_plain kv c hcs
  · subst hc'
    exact (by decide)

theorem schemeChar_ne_colon (c : Char) (h : isSchemeChar c = true) :
    (c == ':') = false := by
  by_cases hc : c = ':'
  · subst hc
    exact absurd h (by decide)
  · exact beq_eq_false_iff_ne.mpr hc

theorem goodPath_shape (l : List Char) (h : goodPath l = true) :
    ∃ t, l = '/' :: t := by
  unfold goodPath at h
  rw [Bool.and_eq_true] at h
  cases l with
  | nil => cases h.1
  | cons c t =>
      have : c = '/' := by
        have h1 := h.1
        simp at h1
        exact h1
      subst this
      exact ⟨t, rfl⟩

theorem head_match_true (l : List Char) (f : Char → Bool)
    (h : (match l with | c :: _ => f c | [] => false) = true) :
    ∃ c t, l = c :: t ∧ f c = true := by
  cases l with
  | nil => cases h
  | cons c t => exact ⟨c, t, rfl, h⟩

theorem parseUrl_serializeUrl (p : UrlP) (h : goodUrl p = true) :
    parseUrl (serializeUrl p) = some p := by
  obtain ⟨sch, host, path, query, frag⟩ := p
  unfold goodUrl at h
  simp only [Bool.and_eq_true] at h
  obtain ⟨⟨⟨⟨hsch, hhost⟩, hpath⟩, hq⟩, hf⟩ := h
  have hfrag : frag = none := by
    cases frag with
    | none => rfl
    | some f => cases hf
  subst hfrag
  unfold goodScheme at hsch
  simp only [Bool.and_eq_true] at hsch
  obtain ⟨⟨hsch1, hsch2⟩, hsch3⟩ := hsch
  unfold goodHost at hhost
  simp only [Bool.and_eq_true] at hhost
  obtain ⟨hhost1, hhost2⟩ := hhost
  obtain ⟨ptail, hptail⟩ := goodPath_shape path hpath
  unfold goodPath at hpath
  simp only [Bool.and_eq_true] at hpath
  obtain ⟨-, hpath2⟩ := hpath
  have hschE : sch.isEmpty = false := by
    cases hb : sch.isEmpty
    · rfl
    · rw [hb] at hsch1
      cases hsch1
  have hhostE : host.isEmpty = false := by
    cases hb : host.isEmpty
    · rfl
    · rw [hb] at hhost1
      cases hhost1
  have hpathE : path.isEmpty = false := by
    rw [hptail]
    rfl
  cases query with
  | none =>
      unfold serializeUrl parseUrl
      dsimp only
      simp only [List.append_nil]
      rw [spanUntil_append (fun c => c == ':') sch _
        (fun c hc => schemeChar_ne_colon c (List.all_eq_true.mp hsch2 c hc))
        rfl]
      dsimp only
      rw [if_pos ⟨rfl, rfl, rfl⟩]
      rw [hschE, if_neg Bool.false_ne_true]
      rw [hsch2]
      rw [show (!true) = false from rfl, if_neg Bool.false_ne_true]
      rw [hsch3]
      rw [show (!true) = false from rfl, if_neg Bool.false_ne_true]
      rw [spanUntil_append (fun c => c == '/' || c == '?' || c == '#') host
        path
        (fun c hc => by
          have := List.all_eq_true.mp hhost2 c hc
          simpa using this)
        (by
          rw [hptail]
          rfl)]
      dsimp only
      rw [hhostE, if_neg Bool.false_ne_true]
      rw [spanUntil_all (fun c => c == '?' || c == '#') path
        (fun c hc => by
          have := List.all_eq_true.mp hpath2 c hc
          simpa using this)]
      dsimp only
      rw [hpathE, if_neg Bool.false_ne_true]
  | some q =>
      have hq' : goodQueryChars q = true := hq
      unfold serializeUrl parseUrl
      dsimp only
      simp only [List.append_nil]
      rw [spanUntil_append (fun c => c == ':') sch _
        (fun c hc => schemeChar_ne_colon c (List.all_eq_true.mp hsch2 c hc))
        rfl]
      dsimp only
      rw [if_pos ⟨rfl, rfl, rfl⟩]
      rw [hschE, if_neg Bool.false_ne_true]
      rw [hsch2]
      rw [show (!true) = false from rfl, if_neg Bool.false_ne_true]
      rw [hsch3]
      rw [show (!true) = false from rfl, if_neg Bool.false_ne_true]
      rw [spanUntil_append (fun c => c == '/' || c == '?' || c == '#') host
        (path ++ '?' :: q)
        (fun c hc => by
          have := List.all_eq_true.mp hhost2 c hc
          simpa using this)
        (by
          rw [hptail]
          rfl)]
      dsimp only
      rw [hhostE, if_neg Bool.false_ne_true]
      rw [spanUntil_append (fun c => c == '?' || c == '#') path ('?' :: q)
        (fun c hc => by
          have := List.all_eq_true.mp hpath2 c hc
          simpa using this)
        rfl]
      dsimp only
      rw [hpathE, if_neg Bool.false_ne_true]
      rw [if_pos rfl]
      rw [spanUntil_all (fun c => c == '#') q
        (fun c hc => by
          have := List.all_eq_true.mp hq' c hc
          simpa using this)]

theorem bool_not_true_of_ne (b : Bool) (h : ¬b = true) : b = false := by
  cases b
  · rfl
  · exact absurd rfl h

theorem not_bang_true (b : Bool) (h : ¬((!b) = true)) : b = true := by
  cases b
  · exact absurd rfl h
  · rfl

theorem parseUrl_shape (cs : List Char) (p : UrlP)
    (hp : parseUrl cs = some p) :
    goodScheme p.scheme = true ∧ goodHost p.host = true ∧
    goodPath p.path = true ∧
    ∀ q, p.query = some q → goodQueryChars q = true := by
  obtain ⟨hsp0, hfail0, hhead0⟩ := spanUntil_spec (fun c => c == ':') cs
  unfold parseUrl at hp
  dsimp only at hp
  split at hp
  case _ c0 c1 c2 rest2 heq0 =>
    split at hp
    case isFalse => cases hp
    case isTrue hflag =>
      split at hp
      case isTrue => cases hp
      case isFalse hschE =>
        split at hp
        case isTrue => cases hp
        case isFalse hschAll =>
          split at hp
          case isTrue => cases hp
          case isFalse hschHead =>
            obtain ⟨hsp1, hfail1, hhead1⟩ := spanUntil_spec
              (fun c => c == '/' || c == '?' || c == '#') rest2
            split at hp
            case isTrue => cases hp
            case isFalse hhostE =>
              obtain ⟨hsp2, hfail2, hhead2⟩ := spanUntil_spec
                (fun c => c == '?' || c == '#')
                (spanUntil (fun c => c == '/' || c == '?' || c == '#')
                  rest2).2
              have hgsch : goodScheme
                  (spanUntil (fun c => c == ':') cs).1 = true := by
                unfold goodScheme
                simp only [Bool.and_eq_true]
                refine ⟨⟨?_, ?_⟩, ?_⟩
                · rw [bool_not_true_of_ne _ hschE]
                  rfl
                · exact not_bang_true _ hschAll
                · exact not_bang_true _ hschHead
              have hghost : goodHost
                  (spanUntil (fun c => c == '/' || c == '?' || c == '#')
                    rest2).1 = true := by
                unfold goodHost
                simp only [Bool.and_eq_true]
                refine ⟨?_, ?_⟩
                · rw [bool_not_true_of_ne _ hhostE]
                  rfl
                · rw [List.all_eq_true]
                  intro c hc
                  rw [hfail1 c hc]
                  rfl
              have hgpath : goodPath
                  (if (spanUntil (fun c => c == '?' || c == '#')
                      (spanUntil (fun c => c == '/' || c == '?' || c == '#')
                        rest2).2).1.isEmpty = true then ['/']
                    else (spanUntil (fun c => c == '?' || c == '#')
                      (spanUntil (fun c => c == '/' || c == '?' || c == '#')
                        rest2).2).1) = true := by
                by_cases hpe : (spanUntil (fun c => c == '?' || c == '#')
                    (spanUntil (fun c => c == '/' || c == '?' || c == '#')
                      rest2).2).1.isEmpty = true
                · rw [if_pos hpe]
                  decide
                · rw [if_neg hpe]
                  cases hr21 : (spanUntil (fun c => c == '?' || c == '#')
                      (spanUntil (fun c => c == '/' || c == '?' || c == '#')
                        rest2).2).1 with
                  | nil =>
                      rw [hr21] at hpe
                      exact absurd rfl hpe
                  | cons d dt =>
                      have hd_mem : d ∈ (spanUntil (fun c => c == '?' || c == '#')
                          (spanUntil (fun c => c == '/' || c == '?' || c == '#')
                            rest2).2).1 := by
                        rw [hr21]
                        exact List.mem_cons_self d dt
                      have hd2 : (d == '?' || d == '#') = false :=
                        hfail2 d hd_mem
                      have hhd : ((d == '/' || d == '?') || d == '#') = true := by
                        have hsp2' := hsp2
                        rw [hr21, List.cons_append] at hsp2'
                        rw [← hsp2'] at hhead1
                        exact hhead1
                      have h9 : (d == '?') = false ∧ (d == '#') = false := by
                        cases h1 : (d == '?') <;> cases h2 : (d == '#')
                        · exact ⟨rfl, rfl⟩
                        · rw [h1, h2] at hd2
                          cases hd2
                        · rw [h1, h2] at hd2
                          cases hd2
                        · rw [h1, h2] at hd2
                          cases hd2
                      have hslash : (d == '/') = true := by
                        cases hsl : (d == '/')
                        · rw [hsl, h9.1, h9.2] at hhd
                          cases hhd
                        · rfl
                      have hd_slash : d = '/' := eq_of_beq hslash
                      subst hd_slash
                      unfold goodPath
                      simp only [Bool.and_eq_true]
                      refine ⟨rfl, ?_⟩
                      rw [List.all_eq_true]
                      intro c hc
                      rw [hfail2 c (by rw [hr21]; exact hc)]
                      rfl
              split at hp
              case _ heq2 =>
                injection hp with hp'
                subst hp'
                exact ⟨hgsch, hghost, hgpath, fun q hq => by cases hq⟩
              case _ c3 rest5 heq2 =>
                split at hp
                case isTrue hc3 =>
                  obtain ⟨hsp3, hfail3, hhead3⟩ := spanUntil_spec
                    (fun c => c == '#') rest5
                  split at hp
                  case _ heq3 =>
                    injection hp with hp'
                    subst hp'
                    refine ⟨hgsch, hghost, hgpath, ?_⟩
                    intro q hq
                    injection hq with hq'
                    subst hq'
                    rw [goodQueryChars, List.all_eq_true]
                    intro c hc
                    rw [hfail3 c hc]
                    rfl
                  case _ c4 f heq3 =>
                    injection hp with hp'
                    subst hp'
                    refine ⟨hgsch, hghost, hgpath, ?_⟩
                    intro q hq
                    injection hq with hq'
                    subst hq'
                    rw [goodQueryChars, List.all_eq_true]
                    intro c hc
                    rw [hfail3 c hc]
                    rfl
                case isFalse hc3 =>
                  split at hp
                  case isTrue hc3b =>
                    injection hp with hp'
                    subst hp'
                    exact ⟨hgsch, hghost, hgpath, fun q hq => by cases hq⟩
                  case isFalse hc3b =>
                    injection hp with hp'
                    subst hp'
                    exact ⟨hgsch, hghost, hgpath, fun q hq => by cases hq⟩
  case _ h =>
    cases hp

theorem stripSlash_ne (cs : List Char) (h : cs.getLast? ≠ some '/') :
    stripSlash cs = cs := by
  unfold stripSlash
  rw [if_neg (by simpa using h)]

theorem stripSlash_last (cs : List Char) (h : cs.getLast? = some '/') :
    stripSlash cs = cs.dropLast := by
  unfold stripSlash
  rw [if_pos (by simpa using h)]

theorem rebuildQuery_fields (p : UrlP) :
    (rebuildQuery p).scheme = p.scheme ∧ (rebuildQuery p).host = p.host ∧
    (rebuildQuery p).path = p.path ∧ (rebuildQuery p).frag = none := by
  obtain ⟨sc, ho, pa, qu, fr⟩ := p
  unfold rebuildQuery
  cases qu with
  | none => exact ⟨rfl, rfl, rfl, rfl⟩
  | some q =>
      dsimp only
      by_cases hqe : q.isEmpty = true
      · rw [if_pos hqe]
        exact ⟨rfl, rfl, rfl, rfl⟩
      · rw [if_neg hqe]
        exact ⟨rfl, rfl, rfl, rfl⟩

theorem rebuildQuery_query (p : UrlP) :
    (rebuildQuery p).query = none ∨ (rebuildQuery p).query = some [] ∨
    ∃ q2, (rebuildQuery p).query = some q2 ∧ q2.isEmpty = false ∧
      runParamPipeline q2 = q2 := by
  obtain ⟨sc, ho, pa, qu, fr⟩ := p
  unfold rebuildQuery
  cases qu with
  | none => exact Or.inl rfl
  | some q =>
      dsimp only
      by_cases hqe : q.isEmpty = true
      · rw [if_pos hqe]
        right
        left
        have hqnil : q = [] := by
          cases q with
          | nil => rfl
          | cons a l => cases hqe
        rw [hqnil]
      · rw [if_neg hqe]
        dsimp only
        by_cases hq2 : (runParamPipeline q).isEmpty = true
        · rw [if_pos hq2]
          exact Or.inl rfl
        · rw [if_neg hq2]
          exact Or.inr (Or.inr ⟨runParamPipeline q, rfl,
            bool_not_true_of_ne _ hq2, runParamPipeline_idem q⟩)

theorem rebuildQuery_self (p : UrlP) (hf : p.frag = none)
    (hq : p.query = none ∨ p.query = some [] ∨
      ∃ q2, p.query = some q2 ∧ q2.isEmpty = false ∧
        runParamPipeline q2 = q2) :
    rebuildQuery p = p := by
  obtain ⟨sc, ho, pa, qu, fr⟩ := p
  dsimp only at hf hq
  subst hf
  unfold rebuildQuery
  rcases hq with h | h | ⟨q2, h, hne, hidem⟩
  · subst h
    rfl
  · subst h
    dsimp only
    rw [if_pos (show ([] : List Char).isEmpty = true from rfl)]
  · subst h
    dsimp only
    rw [if_neg (by rw [hne]; exact Bool.false_ne_true)]
    rw [hidem]
    rw [if_neg (by rw [hne]; exact Bool.false_ne_true)]

theorem getLast?_append_ne (l1 l2 : List Char) (h : l2 ≠ []) :
    (l1 ++ l2).getLast? = l2.getLast? := by
  rw [List.getLast?_append, Option.or_of_isSome (List.getLast?_isSome.mpr h)]

theorem mem_getLast : ∀ (l : List Char) (a : Char), l.getLast? = some a →
    a ∈ l := by
  intro l
  induction l with
  | nil =>
      intro a h
      cases h
  | cons b t ih =>
      intro a h
      cases t with
      | nil =>
          have hb : b = a := by simpa using h
          subst hb
          exact List.mem_cons_self b []
      | cons c t2 =>
          rw [List.getLast?_cons_cons] at h
          exact List.mem_cons_of_mem b (ih a h)

theorem serializeUrl_last (p : UrlP) (hf : p.frag = none)
    (hpa : p.path ≠ [])
    (hq : ∀ q, p.query = some q → ∀ c ∈ q, ¬c = '/')
    (hw : (serializeUrl p).getLast? = some '/') :
    p.query = none ∧ p.path.getLast? = some '/' := by
  obtain ⟨sc, ho, pa, qu, fr⟩ := p
  dsimp only at hf hq hw hpa ⊢
  subst hf
  cases qu with
  | some q =>
      exfalso
      unfold serializeUrl at hw
      dsimp only at hw
      rw [List.append_nil] at hw
      rw [show (':' :: '/' :: '/' :: (ho ++ (pa ++ '?' :: q))) =
        [':', '/', '/'] ++ (ho ++ (pa ++ '?' :: q)) from rfl] at hw
      rw [getLast?_append_ne sc _ (by simp)] at hw
      rw [getLast?_append_ne _ _ (by simp)] at hw
      rw [getLast?_append_ne ho _ (by simp)] at hw
      rw [getLast?_append_ne pa _ (by simp)] at hw
      have hm := mem_getLast _ _ hw
      rcases List.mem_cons.mp hm with hm | hm
      · cases hm
      · exact hq q rfl '/' hm rfl
  | none =>
      refine ⟨rfl, ?_⟩
      unfold serializeUrl at hw
      dsimp only at hw
      rw [List.nil_append, List.append_nil] at hw
      rw [show (':' :: '/' :: '/' :: (ho ++ pa)) =
        [':', '/', '/'] ++ (ho ++ pa) from rfl] at hw
      rw [getLast?_append_ne sc _ (by simp)] at hw
      rw [getLast?_append_ne _ _ (by simp [hpa])] at hw
      rw [getLast?_append_ne ho pa hpa] at hw
      exact hw

theorem goodUrl_rebuild (cs : List Char) (p : UrlP)
    (hp : parseUrl cs = some p) : goodUrl (rebuildQuery p) = true := by
  obtain ⟨h1, h2, h3, h4⟩ := parseUrl_shape cs p hp
  obtain ⟨sc, ho, pa, qu, fr⟩ := p
  dsimp only at h1 h2 h3 h4
  unfold rebuildQuery
  cases qu with
  | none =>
      unfold goodUrl
      dsimp only
      rw [h1, h2, h3]
      rfl
  | some q =>
      dsimp only
      by_cases hqe : q.isEmpty = true
      · rw [if_pos hqe]
        unfold goodUrl
        dsimp only
        rw [h1, h2, h3, h4 q rfl]
        rfl
      · rw [if_neg hqe]
        unfold goodUrl
        dsimp only
        rw [h1, h2, h3]
        by_cases hq2 : (runParamPipeline q).isEmpty = true
        · rw [if_pos hq2]
          rfl
        · rw [if_neg hq2]
          have hgq : goodQueryChars (runParamPipeline q) = true := by
            rw [goodQueryChars, List.all_eq_true]
            intro c hc
            have hc' : c ∈ serializeParams
                (sortParams (filterParams (parseParams q))) := hc
            have := (serializeParams_plain _ c hc').1
            simpa using this
          dsimp only
          rw [hgq]
          rfl

theorem parseUrl_hostOnly (sch host : List Char)
    (h1 : goodScheme sch = true) (h2 : goodHost host = true) :
    parseUrl (sch ++ ':' :: '/' :: '/' :: host) =
      some ⟨sch, host, ['/'], none, none⟩ := by
  unfold goodScheme at h1
  simp only [Bool.and_eq_true] at h1
  obtain ⟨⟨h1a, h1b⟩, h1c⟩ := h1
  unfold goodHost at h2
  simp only [Bool.and_eq_true] at h2
  obtain ⟨h2a, h2b⟩ := h2
  have hschE : sch.isEmpty = false := by
    cases hb : sch.isEmpty
    · rfl
    · rw [hb] at h1a
      cases h1a
  have hhostE : host.isEmpty = false := by
    cases hb : host.isEmpty
    · rfl
    · rw [hb] at h2a
      cases h2a
  unfold parseUrl
  dsimp only
  rw [spanUntil_append (fun c => c == ':') sch _
    (fun c hc => schemeChar_ne_colon c (List.all_eq_true.mp h1b c hc))
    rfl]
  dsimp only
  rw [if_pos ⟨rfl, rfl, rfl⟩]
  rw [hschE, if_neg Bool.false_ne_true]
  rw [h1b]
  rw [show (!true) = false from rfl, if_neg Bool.false_ne_true]
  rw [h1c]
  rw [show (!true) = false from rfl, if_neg Bool.false_ne_true]
  rw [spanUntil_all (fun c => c == '/' || c == '?' || c == '#') host
    (fun c hc => by
      have := List.all_eq_true.mp h2b c hc
      simpa using this)]
  dsimp only
  rw [hhostE, if_neg Bool.false_ne_true]
  rw [show spanUntil (fun c => c == '?' || c == '#') ([] : List Char) =
    ([], []) from rfl]
  dsimp only
  rw [if_pos (show ([] : List Char).isEmpty = true from rfl)]

theorem normChars_eq (cs : List Char) (p : UrlP) (hp : parseUrl cs = some p) :
    normChars cs = stripSlash (serializeUrl (rebuildQuery p)) := by
  unfold normChars
  rw [hp]

theorem normChars_none (cs : List Char) (hp : parseUrl cs = none) :
    normChars cs = cs := by
  unfold normChars
  rw [hp]

theorem normChars_idem (cs : List Char)
    (h : (normChars cs).getLast? ≠ some '/') :
    normChars (normChars cs) = normChars cs := by
  cases hp : parseUrl cs with
  | none =>
      rw [normChars_none cs hp]
      exact normChars_none cs hp
  | some p =>
      set p2 := rebuildQuery p with hp2def
      have hnc : normChars cs = stripSlash (serializeUrl p2) :=
        normChars_eq cs p hp
      have hgood : goodUrl p2 = true := goodUrl_rebuild cs p hp
      have hround : parseUrl (serializeUrl p2) = some p2 :=
        parseUrl_serializeUrl _ hgood
      have hfields := rebuildQuery_fields p
      have hqstab := rebuildQuery_query p
      have hstable : rebuildQuery p2 = p2 :=
        rebuildQuery_self _ hfields.2.2.2 hqstab
      have hfrag : p2.frag = none := hfields.2.2.2
      have hgu := hgood
      unfold goodUrl at hgu
      simp only [Bool.and_eq_true] at hgu
      obtain ⟨⟨⟨⟨hgs, hgh⟩, hgpath⟩, -⟩, -⟩ := hgu
      obtain ⟨pt, hpt⟩ := goodPath_shape _ hgpath
      by_cases hw : (serializeUrl p2).getLast? = some '/'
      · have hv : normChars cs = (serializeUrl p2).dropLast := by
          rw [hnc, stripSlash_last _ hw]
        have hqr : ∀ q, p2.query = some q → ∀ c ∈ q, ¬c = '/' := by
          intro q hq c hc hc'
          rcases hqstab with h0 | h0 | ⟨q2, h0, hne0, hid0⟩
          · rw [h0] at hq
            cases hq
          · rw [h0] at hq
            injection hq with hq'
            subst hq'
            cases hc
          · rw [h0] at hq
            injection hq with hq'
            subst hq'
            rw [← hid0] at hc
            have hc2 : c ∈ serializeParams
                (sortParams (filterParams (parseParams q2))) := hc
            exact (serializeParams_plain _ c hc2).2 hc'
        obtain ⟨hqnone, hplast⟩ := serializeUrl_last p2 hfrag
          (by rw [hpt]; exact List.cons_ne_nil _ _) hqr hw
        have hw_eq : serializeUrl p2 =
            (p2.scheme ++ ':' :: '/' :: '/' :: p2.host) ++ p2.path := by
          unfold serializeUrl
          rw [hqnone, hfrag]
          dsimp only
          simp [List.append_assoc]
        have hvd : (serializeUrl p2).dropLast =
            (p2.scheme ++ ':' :: '/' :: '/' :: p2.host) ++
              p2.path.dropLast := by
          rw [hw_eq, List.dropLast_append_of_ne_nil _
            (by rw [hpt]; exact List.cons_ne_nil _ _)]
        cases pt with
        | nil =>
            have hpd : p2.path.dropLast = [] := by
              rw [hpt]
              rfl
            have hveq : normChars cs =
                p2.scheme ++ ':' :: '/' :: '/' :: p2.host := by
              rw [hv, hvd, hpd, List.append_nil]
            have hparse2 : parseUrl
                (p2.scheme ++ ':' :: '/' :: '/' :: p2.host) =
                some ⟨p2.scheme, p2.host, ['/'], none, none⟩ :=
              parseUrl_hostOnly _ _ hgs hgh
            have hpeq : p2 =
                (⟨p2.scheme, p2.host, ['/'], none, none⟩ : UrlP) := by
              conv_lhs => rw [show p2 = (⟨p2.scheme, p2.host, p2.path,
                p2.query, p2.frag⟩ : UrlP) from rfl]
              rw [hpt, hqnone, hfrag]
            rw [hveq]
            unfold normChars
            rw [hparse2]
            dsimp only
            rw [← hpeq, hstable]
            rw [stripSlash_last _ hw, hvd, hpd, List.append_nil]
        | cons a t2 =>
            have hpd : p2.path.dropLast = '/' :: (a :: t2).dropLast := by
              rw [hpt]
              rfl
            have hgood3 : goodUrl
                (⟨p2.scheme, p2.host, p2.path.dropLast, none, none⟩ :
                  UrlP) = true := by
              unfold goodUrl
              simp only [Bool.and_eq_true]
              refine ⟨⟨⟨⟨hgs, hgh⟩, ?_⟩, ?_⟩, ?_⟩
              · unfold goodPath
                simp only [Bool.and_eq_true]
                constructor
                · show ((p2.path.dropLast.head? == some '/')) = true
                  rw [hpd]
                  rfl
                · rw [List.all_eq_true]
                  intro c hc
                  have hsub : c ∈ p2.path :=
                    (List.dropLast_sublist _).subset hc
                  have hgp := hgpath
                  unfold goodPath at hgp
                  simp only [Bool.and_eq_true] at hgp
                  exact List.all_eq_true.mp hgp.2 c hsub
              · trivial
              · trivial
            have hser3 : serializeUrl
                (⟨p2.scheme, p2.host, p2.path.dropLast, none, none⟩ :
                  UrlP) =
                (p2.scheme ++ ':' :: '/' :: '/' :: p2.host) ++
                  p2.path.dropLast := by
              unfold serializeUrl
              dsimp only
              simp [List.append_assoc]
            have hround3 : parseUrl (serializeUrl
                (⟨p2.scheme, p2.host, p2.path.dropLast, none, none⟩ :
                  UrlP)) =
                some ⟨p2.scheme, p2.host, p2.path.dropLast, none, none⟩ :=
              parseUrl_serializeUrl _ hgood3
            have hveq : normChars cs = serializeUrl
                (⟨p2.scheme, p2.host, p2.path.dropLast, none, none⟩ :
                  UrlP) := by
              rw [hv, hvd, hser3]
            have hlast : (serializeUrl
                (⟨p2.scheme, p2.host, p2.path.dropLast, none, none⟩ :
                  UrlP)).getLast? ≠ some '/' := by
              rw [← hveq]
              exact h
            rw [hveq]
            unfold normChars
            rw [hround3]
            dsimp only
            rw [rebuildQuery_self _ rfl (Or.inl rfl)]
            rw [stripSlash_ne _ hlast]
      · have hs : stripSlash (serializeUrl p2) = serializeUrl p2 :=
          stripSlash_ne _ hw
        rw [hnc, hs]
        unfold normChars
        rw [hround]
        dsimp only
        rw [hstable]
        rw [hs]

/-- C9: the claimed unconditional idempotence fails — the closing
`.replace(/\/$/, '')` strips only one trailing slash, so for
"https://x.com//" the first normalization returns "https://x.com/" and a
second normalization strips again, returning "https://x.com". -/
theorem normalizeUrl_not_idempotent :
    normalizeUrl (normalizeUrl "https://x.com//") ≠
      normalizeUrl "https://x.com//" := by decide

/-- C9 (amended): URL normalization is idempotent on every input whose
normalized form does not end in '/': for such u,
normalize(normalize(u)) == normalize(u). (The unconditional statement is
refuted by `normalizeUrl_not_idempotent`.) -/
theorem normalizeUrl_idem_of_no_trailing_slash (u : String)
    (h : (normalizeUrl u).data.getLast? ≠ some '/') :
    normalizeUrl (normalizeUrl u) = normalizeUrl u := by
  unfold normalizeUrl
  rw [show (String.mk (normChars u.data)).data = normChars u.data from rfl]
  rw [normChars_idem u.data h]

theorem normalizeUrl_idem_witness :
    (normalizeUrl
      "https://x.com/about?b=2&a=1&utm_source=x#f").data.getLast? ≠
        some '/' ∧
    normalizeUrl (normalizeUrl
      "https://x.com/about?b=2&a=1&utm_source=x#f") =
      normalizeUrl "https://x.com/about?b=2&a=1&utm_source=x#f" :=
  ⟨by decide, normalizeUrl_idem_of_no_trailing_slash _ (by decide)⟩
